import Mathlib

/-!
Verification development for the sqlite-schemaless library
(`schemaless.py`): a schemaless key/column/value store on SQLite with
automatically maintained secondary indexes and synchronous change
signals.

The embedding models:
* JSON documents stored in the `value` column (`Json`);
* the append-only log table of one `KeySpace`: rows
  `(row_key, column, value, timestamp)` (`Entry`); timestamps come from
  `time.time` and are modelled as a strictly increasing logical clock;
* `Row` handles with their `_data` cache (`Row.__getitem__`,
  `Row.__setitem__`, `Row.multi_set`, `Row.delete`);
* the SQL queries of `Row.__getitem__`, `KeySpace.all` and
  `Index.query`: `GROUP BY row_key, column ORDER BY row_key,
  timestamp DESC` is modelled denotationally as picking, per
  `(row_key, column)` group, the entry with the greatest timestamp;
* the two triggers installed by `Index._create_triggers` and the signal
  trigger of `KeySpace._create_trigger` with `Schemaless.event_handler`
  dispatch;
* the fallback path extractor `_json_extract_fallback`, together with
  the Python exceptions it can raise and the ones its
  `except (KeyError, IndexError)` clause catches;
* table/trigger provisioning (`KeySpace.create`) over an explicit
  catalog of existing tables, with `CREATE TABLE` vs
  `CREATE TABLE IF NOT EXISTS` distinguished as in peewee's
  `create_table(fail_silently)`.
-/

namespace Schemaless

/-- JSON values, as produced by `json.loads` on the serialized documents
stored in the `value` column. Numbers are modelled as integers (the
claims under study never depend on float arithmetic). -/
inductive Json where
  | null : Json
  | bool : Bool → Json
  | num : Int → Json
  | str : String → Json
  | arr : List Json → Json
  | obj : List (String × Json) → Json
deriving Repr, Inhabited

mutual

def Json.decEq : (a b : Json) → Decidable (a = b)
  | .null, .null => isTrue rfl
  | .null, .bool _ => isFalse (fun h => Json.noConfusion h)
  | .null, .num _ => isFalse (fun h => Json.noConfusion h)
  | .null, .str _ => isFalse (fun h => Json.noConfusion h)
  | .null, .arr _ => isFalse (fun h => Json.noConfusion h)
  | .null, .obj _ => isFalse (fun h => Json.noConfusion h)
  | .bool _, .null => isFalse (fun h => Json.noConfusion h)
  | .bool x, .bool y =>
      match Bool.decEq x y with
      | isTrue h => isTrue (h ▸ rfl)
      | isFalse h => isFalse (fun he => by cases he; exact h rfl)
  | .bool _, .num _ => isFalse (fun h => Json.noConfusion h)
  | .bool _, .str _ => isFalse (fun h => Json.noConfusion h)
  | .bool _, .arr _ => isFalse (fun h => Json.noConfusion h)
  | .bool _, .obj _ => isFalse (fun h => Json.noConfusion h)
  | .num _, .null => isFalse (fun h => Json.noConfusion h)
  | .num _, .bool _ => isFalse (fun h => Json.noConfusion h)
  | .num x, .num y =>
      match Int.decEq x y with
      | isTrue h => isTrue (h ▸ rfl)
      | isFalse h => isFalse (fun he => by cases he; exact h rfl)
  | .num _, .str _ => isFalse (fun h => Json.noConfusion h)
  | .num _, .arr _ => isFalse (fun h => Json.noConfusion h)
  | .num _, .obj _ => isFalse (fun h => Json.noConfusion h)
  | .str _, .null => isFalse (fun h => Json.noConfusion h)
  | .str _, .bool _ => isFalse (fun h => Json.noConfusion h)
  | .str _, .num _ => isFalse (fun h => Json.noConfusion h)
  | .str x, .str y =>
      match String.decEq x y with
      | isTrue h => isTrue (h ▸ rfl)
      | isFalse h => isFalse (fun he => by cases he; exact h rfl)
  | .str _, .arr _ => isFalse (fun h => Json.noConfusion h)
  | .str _, .obj _ => isFalse (fun h => Json.noConfusion h)
  | .arr _, .null => isFalse (fun h => Json.noConfusion h)
  | .arr _, .bool _ => isFalse (fun h => Json.noConfusion h)
  | .arr _, .num _ => isFalse (fun h => Json.noConfusion h)
  | .arr _, .str _ => isFalse (fun h => Json.noConfusion h)
  | .arr xs, .arr ys =>
      match Json.decEqList xs ys with
      | isTrue h => isTrue (h ▸ rfl)
      | isFalse h => isFalse (fun he => by cases he; exact h rfl)
  | .arr _, .obj _ => isFalse (fun h => Json.noConfusion h)
  | .obj _, .null => isFalse (fun h => Json.noConfusion h)
  | .obj _, .bool _ => isFalse (fun h => Json.noConfusion h)
  | .obj _, .num _ => isFalse (fun h => Json.noConfusion h)
  | .obj _, .str _ => isFalse (fun h => Json.noConfusion h)
  | .obj _, .arr _ => isFalse (fun h => Json.noConfusion h)
  | .obj xs, .obj ys =>
      match Json.decEqObj xs ys with
      | isTrue h => isTrue (h ▸ rfl)
      | isFalse h => isFalse (fun he => by cases he; exact h rfl)

def Json.decEqList : (as bs : List Json) → Decidable (as = bs)
  | [], [] => isTrue rfl
  | [], _ :: _ => isFalse (fun h => List.noConfusion h)
  | _ :: _, [] => isFalse (fun h => List.noConfusion h)
  | a :: as, b :: bs =>
      match Json.decEq a b with
      | isTrue h₁ =>
          match Json.decEqList as bs with
          | isTrue h₂ => isTrue (h₁ ▸ h₂ ▸ rfl)
          | isFalse h₂ => isFalse (fun he => by cases he; exact h₂ rfl)
      | isFalse h₁ => isFalse (fun he => by cases he; exact h₁ rfl)

def Json.decEqObj : (as bs : List (String × Json)) → Decidable (as = bs)
  | [], [] => isTrue rfl
  | [], _ :: _ => isFalse (fun h => List.noConfusion h)
  | _ :: _, [] => isFalse (fun h => List.noConfusion h)
  | (k₁, v₁) :: as, (k₂, v₂) :: bs =>
      match String.decEq k₁ k₂ with
      | isTrue hk =>
          match Json.decEq v₁ v₂ with
          | isTrue hv =>
              match Json.decEqObj as bs with
              | isTrue ht => isTrue (hk ▸ hv ▸ ht ▸ rfl)
              | isFalse ht => isFalse (fun he => by cases he; exact ht rfl)
          | isFalse hv => isFalse (fun he => by cases he; exact hv rfl)
      | isFalse hk => isFalse (fun he => by cases he; exact hk rfl)

end

instance : DecidableEq Json := Json.decEq

/-- One physical record of a KeySpace's log table: peewee model fields
`row_key`, `column`, `value`, `timestamp` (`KeySpace.get_model_class`). -/
structure Entry where
  rowKey : Nat
  column : String
  value : Json
  timestamp : Nat
deriving Repr, DecidableEq

/-- State of one KeySpace's log table. `clock` is the next timestamp to
hand out: `FloatField(default=time.time)` modelled as a strictly
increasing logical clock. -/
structure KSState where
  log : List Entry
  clock : Nat
deriving Repr, DecidableEq

def KSState.empty : KSState := ⟨[], 0⟩

/-- Append one record, as a bare `INSERT` into the log table. -/
def KSState.append (st : KSState) (rk : Nat) (col : String) (v : Json) : KSState :=
  ⟨st.log ++ [⟨rk, col, v, st.clock⟩], st.clock + 1⟩

/-- Pick the record with the greatest timestamp from a list: the
denotation of `ORDER BY timestamp DESC LIMIT 1`. Reachable logs carry
pairwise distinct timestamps, so the tie-break is immaterial. -/
def pickLatest : List Entry → Option Entry
  | [] => none
  | e :: rest =>
      match pickLatest rest with
      | none => some e
      | some m => if e.timestamp < m.timestamp then some m else some e

/-- Does `e` belong to the `(rk, col)` group? -/
def entryMatches (rk : Nat) (col : String) (e : Entry) : Bool :=
  e.rowKey == rk && e.column == col

/-- The entry returned by
`SELECT value WHERE row_key = rk AND column = col
 ORDER BY timestamp DESC LIMIT 1` (`Row.__getitem__`). -/
def latestEntry (log : List Entry) (rk : Nat) (col : String) : Option Entry :=
  pickLatest (log.filter (entryMatches rk col))

/-- Python-dict insertion: replace in place when the key is present,
else append at the end. -/
def dictSet [DecidableEq κ] (d : List (κ × α)) (k : κ) (v : α) : List (κ × α) :=
  match d with
  | [] => [(k, v)]
  | (k₁, v₁) :: rest =>
      if k₁ = k then (k, v) :: rest else (k₁, v₁) :: dictSet rest k v

/-- Python-dict lookup returning `none` when the key is missing. -/
def dictGet [DecidableEq κ] (d : List (κ × α)) (k : κ) : Option α :=
  match d with
  | [] => none
  | (k₁, v₁) :: rest => if k₁ = k then some v₁ else dictGet rest k

/-- The `clean` helper: `re.sub` of non-word characters with the empty
string — strip every non-word character
(`\w` taken over ASCII: letters, digits, underscore). -/
def clean (s : String) : String :=
  String.mk (s.data.filter (fun c => c.isAlphanum || c == '_'))

/-- SQL `MAX(row_key)` over the log, with 0 standing for SQL NULL on an
empty log (row keys handed out by allocation are ≥ 1). -/
def maxRowKey (log : List Entry) : Nat :=
  (log.map (·.rowKey)).foldl max 0

/-- The identifier allocation of `Row.multi_set` / `Row.__setitem__`:
`COALESCE(MAX(row_key) + 1, 1)`. -/
def allocKey (log : List Entry) : Nat :=
  maxRowKey log + 1

/-- Model of `KeySpace.create_row(**data)` with at least one column: allocate
`COALESCE(MAX(row_key) + 1, 1)` and append every supplied column under
that row key (`Row.multi_set`). Returns the new state and the allocated
row key. -/
def KSState.createRow (st : KSState) (data : List (String × Json)) :
    KSState × Nat :=
  let rk := allocKey st.log
  (data.foldl (fun s cv => s.append rk cv.1 cv.2) st, rk)

/-- Model of `Row.delete()`: `DELETE FROM keyspace WHERE row_key = rk` (bare log
effect, without index triggers; the triggered variant lives in
`IdxState.step`). -/
def KSState.deleteRow (st : KSState) (rk : Nat) : KSState :=
  ⟨st.log.filter (fun e => !(e.rowKey == rk)), st.clock⟩

/-- The row keys handed out by successive `create_row` calls. -/
def createRowKeys : KSState → List (List (String × Json)) → List Nat
  | _, [] => []
  | st, d :: ds =>
      let r := st.createRow d
      r.2 :: createRowKeys r.1 ds

/-- A `Row` handle: the identifier (None while pending creation) and the
`_data` cache. A cached value of `none` mirrors Python's `None` being
stored in `_data` after a failed lookup. -/
structure Row where
  identifier : Option Nat
  data : List (String × Option Json)
deriving Repr, DecidableEq

/-- Model of `Row.__getitem__`: serve from `_data` when cached, else run the
latest-timestamp point query, cache the result (possibly `None`) and
return it. -/
def Row.getItem (st : KSState) (r : Row) (key : String) : Option Json × Row :=
  match dictGet r.data key with
  | some v => (v, r)
  | none =>
      let v : Option Json :=
        match r.identifier with
        | some rk => (latestEntry st.log rk key).map (·.value)
        | none => none
      (v, { r with data := dictSet r.data key v })

/-- A fresh handle as produced by `KeySpace.__getitem__`: identifier
set, empty cache. -/
def freshRow (rk : Nat) : Row := ⟨some rk, []⟩

/-- Python exceptions relevant to the embedded code paths. -/
inductive PyErr where
  | typeError : PyErr
  | valueError : PyErr
  | keyError : PyErr
  | operationalError : PyErr
deriving Repr, DecidableEq

instance [DecidableEq ε] [DecidableEq α] : DecidableEq (Except ε α) := fun x y =>
  match x, y with
  | .ok a, .ok b =>
      match decEq a b with
      | isTrue h => isTrue (h ▸ rfl)
      | isFalse h => isFalse (fun he => by cases he; exact h rfl)
  | .ok _, .error _ => isFalse (fun he => Except.noConfusion he)
  | .error _, .ok _ => isFalse (fun he => Except.noConfusion he)
  | .error e₁, .error e₂ =>
      match decEq e₁ e₂ with
      | isTrue h => isTrue (h ▸ rfl)
      | isFalse h => isFalse (fun he => by cases he; exact h rfl)

/-! ### Scan grouping: `KeySpace.all`, `Index.query`, `row_iterator` -/

/-- Distinct row keys of the log in ascending order: the effect of
`GROUP BY row_key, ... ORDER BY row_key, ...`. -/
def sortedRowKeys (log : List Entry) : List Nat :=
  List.insertionSort (· ≤ ·) (log.map (·.rowKey)).dedup

/-- Timestamp of the group representative for `(rk, c)` (0 when the
group is empty; only used to order non-empty groups). -/
def groupTs (log : List Entry) (rk : Nat) (c : String) : Nat :=
  match latestEntry log rk c with
  | some e => e.timestamp
  | none => 0

/-- Distinct columns present for row `rk`, ordered by group timestamp
descending: the order the grouped scan emits one row-key group in
(`ORDER BY row_key, timestamp DESC`). -/
def colsOf (log : List Entry) (rk : Nat) : List String :=
  List.insertionSort (fun c₁ c₂ => groupTs log rk c₂ ≤ groupTs log rk c₁)
    (((log.filter (fun e => e.rowKey == rk)).map (·.column)).dedup)

/-- Value contributed by the `(rk, c)` group: its greatest-timestamp
record's value. The `.null` branch is dead code: every `c ∈ colsOf`
has a record. -/
def valAt (log : List Entry) (rk : Nat) (c : String) : Json :=
  match latestEntry log rk c with
  | some e => e.value
  | none => .null

/-- One row-key group of the grouped scan: `(row_key, column, value)`
triples for `rk`. -/
def groupOf (log : List Entry) (rk : Nat) : List (Nat × String × Json) :=
  (colsOf log rk).map (fun c => (rk, c, valAt log rk c))

/-- The grouped ordered scan over the given row keys: the `SELECT ...
GROUP BY row_key, column ORDER BY row_key, timestamp DESC` feeding
`row_iterator` in `KeySpace.all` and `Index.query`. -/
def scanGroups (log : List Entry) (keys : List Nat) : List (Nat × String × Json) :=
  keys.flatMap (groupOf log)

/-- Loop body of `row_iterator` once `curr` is initialized: accumulate
columns of the current row key, emit a `Row` when the key changes. -/
def rowIteratorGo (curr : Nat) (accum : List (String × Option Json)) :
    List (Nat × String × Json) → List Row
  | [] => [⟨some curr, accum⟩]
  | (rk, c, v) :: rest =>
      if rk = curr then rowIteratorGo curr (dictSet accum c (some v)) rest
      else ⟨some curr, accum⟩ :: rowIteratorGo rk [(c, some v)] rest

/-- Model of `row_iterator(keyspace, query)`: group consecutive equal
row keys of the scan into `Row` objects whose `_data` holds the scanned
columns. -/
def rowIterator : List (Nat × String × Json) → List Row
  | [] => []
  | (rk, c, v) :: rest => rowIteratorGo rk [(c, some v)] rest

/-- Model of `KeySpace.all()`. -/
def ksAll (log : List Entry) : List Row :=
  rowIterator (scanGroups log (sortedRowKeys log))

/-- The `_data` accumulated by `row_iterator` over one group. -/
def buildData (l : List (Nat × String × Json)) : List (String × Option Json) :=
  l.foldl (fun a t => dictSet a t.2.1 (some t.2.2)) []

/-! ### Index maintenance (triggers of `Index._create_triggers`) -/

/-- Static data of one `Index`: the bound column, and the SQL-visible
extraction at its path: `extract v = some x` models
`json_extract(v, path) IS NOT NULL` with result `x`; a failed
extraction, or one producing JSON null, is SQL NULL, i.e. `none`. -/
structure IndexSpec where
  column : String
  extract : Json → Option Json

/-- A KeySpace log together with one bound index's projection table
(`row_key`, `value` pairs in insertion order). -/
structure IdxState where
  ks : KSState
  items : List (Nat × Json)

def IdxState.empty : IdxState := ⟨KSState.empty, []⟩

/-- Mutating operations against a KeySpace with a bound index. -/
inductive Op where
  | append (rk : Nat) (col : String) (v : Json)
  | deleteRow (rk : Nat)
  | deleteColumn (rk : Nat) (col : String)

/-- Does the log hold a record for `(rk, col)`? Exactly when it does,
the `BEFORE DELETE ... WHEN OLD.column = col` trigger fires at least
once while those records are deleted. -/
def hasColEntry (log : List Entry) (rk : Nat) (col : String) : Bool :=
  log.any (entryMatches rk col)

/-- One operation with its triggers.
`append`: the insert, then the `AFTER INSERT` populate trigger —
when `new.column` is the bound column and extraction is non-absent,
`DELETE FROM index WHERE row_key = new.row_key` then `INSERT` the
extracted value; otherwise the projection is untouched.
`deleteRow` (`Row.delete()`) and `deleteColumn` (`Row.__delitem__`):
the `BEFORE DELETE` trigger removes the projection entries of the row
key once per deleted record with the bound column, then the records
are removed from the log. -/
def IdxState.step (spec : IndexSpec) (s : IdxState) : Op → IdxState
  | .append rk col v =>
      let ks := s.ks.append rk col v
      match (if col = spec.column then spec.extract v else none) with
      | some x => ⟨ks, s.items.filter (fun p => !(p.1 == rk)) ++ [(rk, x)]⟩
      | none => ⟨ks, s.items⟩
  | .deleteRow rk =>
      let items :=
        if hasColEntry s.ks.log rk spec.column then
          s.items.filter (fun p => !(p.1 == rk))
        else s.items
      ⟨⟨s.ks.log.filter (fun e => !(e.rowKey == rk)), s.ks.clock⟩, items⟩
  | .deleteColumn rk col =>
      let items :=
        if col = spec.column ∧ hasColEntry s.ks.log rk col = true then
          s.items.filter (fun p => !(p.1 == rk))
        else s.items
      ⟨⟨s.ks.log.filter (fun e => !(entryMatches rk col e)), s.ks.clock⟩, items⟩

/-- Run a sequence of operations from the empty state. -/
def IdxState.run (spec : IndexSpec) (ops : List Op) : IdxState :=
  ops.foldl (IdxState.step spec) IdxState.empty

/-- The greatest-timestamp record of `rk` at the bound column whose
extraction is non-absent: the version the projection should reflect. -/
def latestMatching (spec : IndexSpec) (log : List Entry) (rk : Nat) :
    Option Entry :=
  pickLatest (log.filter (fun e =>
    entryMatches rk spec.column e && (spec.extract e.value).isSome))

/-- Model of `Index.all_items()`: the projection content ordered by row
key ascending. -/
def allItems (items : List (Nat × Json)) : List (Nat × Json) :=
  List.insertionSort (fun p q => p.1 ≤ q.1) items

/-- Reachability invariant tying the projection table to the log:
timestamps are in the clock's past, projection row keys are
duplicate-free, and each row key's projection value is the extraction
of its latest matching log record. -/
def IdxInv (spec : IndexSpec) (s : IdxState) : Prop :=
  (∀ e ∈ s.ks.log, e.timestamp < s.ks.clock)
  ∧ (s.items.map Prod.fst).Nodup
  ∧ ∀ rk, dictGet s.items rk
      = (latestMatching spec s.ks.log rk).bind (fun e => spec.extract e.value)

/-- The state after `Row.delete()` on `rk`, starting from the state
reached by running `ops` from scratch. -/
def runThenDelete (spec : IndexSpec) (ops : List Op) (rk : Nat) : IdxState :=
  IdxState.step spec (IdxState.run spec ops) (Op.deleteRow rk)

/-- SQL-visible extraction at path `$.k1`, for concrete instances: a
top-level object's `k1` member when present and not JSON null. -/
def extractK1 : Json → Option Json
  | .obj kvs =>
      match dictGet kvs "k1" with
      | some Json.null => none
      | r => r
  | _ => none

/-- A sample index bound to column `data` at path `$.k1`, as in the
repository's `populate_test_index`. -/
def sampleSpec : IndexSpec := ⟨"data", extractK1⟩

/-! ### `Index.query` -/

/-- The eight comparison operators of `Index._op_map`. -/
inductive OpTag where
  | lt | le | eq | ge | gt | ne | like | inOp
deriving Repr, DecidableEq

/-- Model of `Index._op_map`: operator tokens in dictionary order. -/
def opMap : List (String × OpTag) :=
  [("<", .lt), ("<=", .le), ("==", .eq), (">=", .ge), (">", .gt),
   ("!=", .ne), ("LIKE", .like), ("IN", .inOp)]

/-- Row keys whose projection value satisfies the compiled comparison:
the join-plus-where of `Index.query`. -/
def matchRowKeys (items : List (Nat × Json)) (pred : Json → Bool) : List Nat :=
  (items.filter (fun p => pred p.2)).map (·.1)

/-- The rows produced by exhausting `Index.query`'s SQL: the grouped
scan restricted to matching row keys, folded by `row_iterator`. -/
def queryRows (log : List Entry) (items : List (Nat × Json))
    (pred : Json → Bool) : List Row :=
  rowIterator (scanGroups log
    ((sortedRowKeys log).filter (fun rk => (matchRowKeys items pred).contains rk)))

/-- Since `Index.query` contains `yield`, calling it only constructs a
generator: none of the body — the `_op_map[operation]` lookup included —
runs before the generator is first advanced. The outer `Except` is what
the call itself can raise (nothing), the inner function the deferred
body; `sem` is the engine's semantics of the comparison operators. -/
def queryStaged (sem : OpTag → Json → Json → Bool) (s : IdxState)
    (v : Json) (opStr : String) :
    Except PyErr (Unit → Except PyErr (List Row)) :=
  .ok (fun _ =>
    match dictGet opMap opStr with
    | none => .error .keyError
    | some tag => .ok (queryRows s.ks.log s.items (fun x => sem tag x v)))

/-- First `next()` on the generator returned by a `query` call. -/
def forceStaged (g : Except PyErr (Unit → Except PyErr (List Row))) :
    Except PyErr (List Row) :=
  match g with
  | .ok f => f ()
  | .error e => .error e

/-! ### Event dispatch -/

/-- One registered handler: its registration identity and its callback;
`stops sig = true` models the callback returning Python `False`
(`event_handler` then breaks out of the dispatch loop). -/
structure Handler where
  hid : Nat
  stops : Nat → String → Json → Bool

/-- Model of `Schemaless.event_handler`: invoke the registered handlers
in order, stopping after one returns `False`. Produces the deliveries
made: handler identity paired with the `(row_key, column, value)`
signal. -/
def emitEvent (hs : List Handler) (rk : Nat) (c : String) (v : Json) :
    List (Nat × Nat × String × Json) :=
  match hs with
  | [] => []
  | h :: rest =>
      (h.hid, rk, c, v) ::
        (if h.stops rk c v then [] else emitEvent rest rk c v)

/-- Model of `create_row(**data)` under the signal trigger: allocate the
row key, insert each column in order, the `AFTER INSERT` trigger firing
`emit_event` once per inserted record. Returns the final log state and
all deliveries in order. -/
def createRowSignals (hs : List Handler) (st : KSState)
    (data : List (String × Json)) :
    KSState × List (Nat × Nat × String × Json) :=
  let rk := allocKey st.log
  data.foldl
    (fun acc cv =>
      (acc.1.append rk cv.1 cv.2, acc.2 ++ emitEvent hs rk cv.1 cv.2))
    (st, [])

/-- The `unbind` closure made by `KeySpace.handler`:
`handlers.remove(wrapper)` removes the first registration equal to the
wrapper, modelled by its identity. -/
def unbindFirst (hs : List Handler) (hid : Nat) : List Handler :=
  match hs with
  | [] => []
  | h :: rest => if h.hid = hid then rest else h :: unbindFirst rest hid

/-- Sample registration 1: a callback that never returns `False`. -/
def handlerA : Handler := ⟨1, fun _ _ _ => false⟩

/-- Sample registration 2: a callback that never returns `False`. -/
def handlerB : Handler := ⟨2, fun _ _ _ => false⟩

/-! ### The fallback path extractor `_json_extract_fallback` -/

/-- Tokenizer for `split_re.split(...)` on the path after
`path.lstrip('$.')`: split on `.` and on bracketed digit groups, the
bracket groups kept as tokens of their own (the regex capture);
a `[` not followed by digits and `]` is ordinary text. The scanner
carries the token built so far and, inside a candidate bracket group,
the digits read so far. -/
def splitGo : List Char → List Char → Option (List Char) → List (List Char)
  | [], tok, none => [tok]
  | [], tok, some buf => [tok ++ '[' :: buf]
  | c :: rest, tok, none =>
      if c = '.' then tok :: splitGo rest [] none
      else if c = '[' then splitGo rest tok (some [])
      else splitGo rest (tok ++ [c]) none
  | c :: rest, tok, some buf =>
      if c.isDigit then splitGo rest tok (some (buf ++ [c]))
      else if c = ']' ∧ buf ≠ [] then
        tok :: ('[' :: (buf ++ [']'])) :: splitGo rest [] none
      else if c = '.' then (tok ++ '[' :: buf) :: splitGo rest [] none
      else if c = '[' then splitGo rest (tok ++ '[' :: buf) (some [])
      else splitGo rest (tok ++ '[' :: buf ++ [c]) none

/-- The parts the extractor loops over:
`filter(None, split_re.split(path.lstrip('$.')))`. -/
def splitParts (path : String) : List String :=
  ((splitGo (path.data.dropWhile (fun c => c == '$' || c == '.')) [] none).map
    String.mk).filter (· ≠ "")

/-- Python `int` on the token strings arising inside brackets: defined
for non-empty all-digit strings, `None` (an uncaught `ValueError` at
the call site) otherwise. CPython's tolerance for surrounding
whitespace and signs is not modelled; the tokenizer never emits it. -/
def pyToNat (s : String) : Option Nat :=
  match s.data with
  | [] => none
  | cs =>
      if cs.all (fun c => c.isDigit) then
        some (cs.foldl (fun a c => a * 10 + (c.toNat - 48)) 0)
      else none

/-- Python `s.strip('[]')`: drop the bracket characters from both
ends. -/
def stripBrackets (s : String) : String :=
  String.mk
    (((s.data.dropWhile (fun c => c == '[' || c == ']')).reverse.dropWhile
      (fun c => c == '[' || c == ']')).reverse)

/-- One subscript `json_data[i]` for a bracket part. A caught
`KeyError`/`IndexError` means the Python function returns `None`, kept
here as `ok none`; a `TypeError` is NOT caught by
`except (KeyError, IndexError)` and propagates. Subscripting a JSON
string yields its one-character substring, as in Python; subscripting
an object raises `KeyError` (JSON object keys are strings); subscripting
null, a bool or a number raises `TypeError`. -/
def indexStep : Json → Nat → Except PyErr (Option Json)
  | .arr xs, i => pure (xs.get? i)
  | .str s, i => pure ((s.data.get? i).map (fun ch => Json.str (String.mk [ch])))
  | .obj _, _ => pure none
  | _, _ => throw .typeError

/-- One field access `json_data[part]`: object lookup (a `KeyError`
miss is caught), while field access on an array, string, number, bool
or null raises `TypeError`, which the function does not catch. -/
def fieldStep : Json → String → Except PyErr (Option Json)
  | .obj kvs, f => pure (dictGet kvs f)
  | _, _ => throw .typeError

/-- One loop iteration: classify the part (`part.startswith('[')` →
`int(part.strip('[]'))`, whose failure is an uncaught `ValueError`) and
subscript. Python `int` is modelled for the digit-string arguments
arising from path tokens. -/
def stepPart (j : Json) (p : String) : Except PyErr (Option Json) :=
  match p.data with
  | '[' :: _ =>
      (match pyToNat (stripBrackets p) with
        | some i => indexStep j i
        | none => throw .valueError)
  | _ => fieldStep j p

/-- The traversal loop of `_json_extract_fallback`: a caught lookup
miss returns `None` for the whole call at once. -/
def extractLoop : Json → List String → Except PyErr (Option Json)
  | j, [] => pure (some j)
  | j, p :: rest => do
      match ← stepPart j p with
      | none => pure none
      | some j₂ => extractLoop j₂ rest

/-- Model of `_json_extract_fallback(json_text, path)` on the decoded
document. -/
def jsonExtractFallback (j : Json) (path : String) : Except PyErr (Option Json) :=
  extractLoop j (splitParts path)

/-! ### Provisioning (`KeySpace.create`) -/

/-- The relevant schema catalog of the SQLite database: which tables and
triggers exist. -/
structure Catalog where
  tables : List String
  trigs : List String
deriving Repr, DecidableEq

def Catalog.emptyCat : Catalog := ⟨[], []⟩

/-- peewee `Model.create_table(fail_silently)`: a plain `CREATE TABLE`
raises `OperationalError` when the table already exists; with
`fail_silently=True` it issues `CREATE TABLE IF NOT EXISTS`. -/
def Catalog.createTable (cat : Catalog) (name : String) (failSilently : Bool) :
    Except PyErr Catalog :=
  if name ∈ cat.tables then
    if failSilently then .ok cat else .error .operationalError
  else .ok ⟨cat.tables ++ [name], cat.trigs⟩

/-- A `CREATE TRIGGER IF NOT EXISTS` statement. -/
def Catalog.createTrigger (cat : Catalog) (name : String) : Catalog :=
  if name ∈ cat.trigs then cat else ⟨cat.tables, cat.trigs ++ [name]⟩

/-- A `CREATE TABLE IF NOT EXISTS`: the effect of
`create_table(fail_silently=True)`, which never raises. -/
def Catalog.createTableSafe (cat : Catalog) (name : String) : Catalog :=
  if name ∈ cat.tables then cat else ⟨cat.tables ++ [name], cat.trigs⟩

/-- Provisioning of one bound index (`Index._create_triggers`):
`self.model.create_table(True)`, then the populate and delete triggers,
all IF-NOT-EXISTS. `ksTable` is the owning KeySpace's table; the index
is given as its `(column, path)` pair, from which `Index.bind` derives
the table name and `Index.__init__` the trigger-name stem. -/
def indexProvision (ksTable : String) (cat : Catalog) (idx : String × String) :
    Catalog :=
  let idxName := clean idx.2
  let idxTable := ksTable ++ "_" ++ clean idx.1 ++ "_" ++ idxName
  ((cat.createTableSafe idxTable).createTrigger
      (idxName ++ "_populate")).createTrigger (idxName ++ "_delete")

/-- Model of `KeySpace.create()`: `self.model.create_table()` — with
peewee's default `fail_silently=False` — then the signal trigger, then
every bound index's provisioning. -/
def ksCreate (cat : Catalog) (name : String)
    (indexes : List (String × String)) : Except PyErr Catalog := do
  let t := clean name
  let cat₁ ← cat.createTable t false
  let cat₂ := cat₁.createTrigger (t ++ "_signal")
  pure (indexes.foldl (indexProvision t) cat₂)

/-! ### Named keyspaces sharing one database -/

/-- The physical database as seen by possibly many KeySpace objects:
one log table per sanitized table name, plus the shared clock. -/
structure Db where
  tables : List (String × List Entry)
  clock : Nat
deriving Repr, DecidableEq

def Db.getLog (db : Db) (t : String) : List Entry :=
  (dictGet db.tables t).getD []

/-- Timestamps in every table are in the past of the clock. -/
def Db.wf (db : Db) : Prop :=
  ∀ p ∈ db.tables, ∀ e ∈ p.2, e.timestamp < db.clock

instance (db : Db) : Decidable db.wf := by
  unfold Db.wf; infer_instance

/-- A write through a KeySpace object constructed with `name`: the
storage table is `clean(name)` (`KeySpace.__init__` sets
`self.db_table = clean(self.name)`). -/
def dbWrite (db : Db) (name : String) (rk : Nat) (col : String) (v : Json) :
    Db :=
  let t := clean name
  ⟨dictSet db.tables t (db.getLog t ++ [⟨rk, col, v, db.clock⟩]), db.clock + 1⟩

/-- A latest-version read through a KeySpace object constructed with
`name`. -/
def dbRead (db : Db) (name : String) (rk : Nat) (col : String) : Option Json :=
  (latestEntry (db.getLog (clean name)) rk col).map (·.value)

/-! ### Dictionary lemmas -/

theorem dictGet_eq_none_iff [DecidableEq κ] {d : List (κ × α)} {k : κ} :
    dictGet d k = none ↔ ∀ p ∈ d, p.1 ≠ k := by
  induction d with
  | nil => simp [dictGet]
  | cons p rest ih =>
      obtain ⟨k₁, v₁⟩ := p
      by_cases hk : k₁ = k
      · subst hk
        simp [dictGet]
      · simp [dictGet, hk, ih]

theorem dictSet_of_not_mem [DecidableEq κ] {d : List (κ × α)} {k : κ} {v : α}
    (h : ∀ p ∈ d, p.1 ≠ k) : dictSet d k v = d ++ [(k, v)] := by
  induction d with
  | nil => rfl
  | cons p rest ih =>
      obtain ⟨k₁, v₁⟩ := p
      have hk : k₁ ≠ k := h (k₁, v₁) (List.mem_cons_self _ _)
      simp only [dictSet, hk, if_false]
      rw [ih (fun q hq => h q (List.mem_cons_of_mem _ hq))]
      simp

theorem dictGet_map_key [DecidableEq κ] (f : κ → α) (keys : List κ) (k : κ) :
    dictGet (keys.map (fun k₁ => (k₁, f k₁))) k
      = if k ∈ keys then some (f k) else none := by
  induction keys with
  | nil => simp [dictGet]
  | cons k₁ rest ih =>
      by_cases hk : k₁ = k
      · subst hk
        simp [dictGet]
      · simp only [List.map_cons, dictGet, hk, if_false, ih, List.mem_cons]
        have : ¬k = k₁ := fun h => hk h.symm
        simp [this]

/-! ### Basic lemmas about `pickLatest` -/

theorem pickLatest_eq_none (l : List Entry) : pickLatest l = none ↔ l = [] := by
  cases l with
  | nil => simp [pickLatest]
  | cons e rest =>
      simp only [pickLatest]
      cases h : pickLatest rest with
      | none => simp
      | some m =>
          constructor
          · intro hc
            by_cases hlt : e.timestamp < m.timestamp <;> simp [hlt] at hc
          · intro hc
            exact absurd hc (List.cons_ne_nil _ _)

theorem pickLatest_mem {l : List Entry} {m : Entry} (h : pickLatest l = some m) :
    m ∈ l := by
  induction l with
  | nil => simp [pickLatest] at h
  | cons e rest ih =>
      simp only [pickLatest] at h
      cases hr : pickLatest rest with
      | none =>
          rw [hr] at h
          cases h
          exact List.mem_cons_self _ _
      | some m₁ =>
          rw [hr] at h
          by_cases hlt : e.timestamp < m₁.timestamp
          · simp only [hlt, if_true] at h
            cases h
            exact List.mem_cons_of_mem _ (ih hr)
          · simp only [hlt, if_false] at h
            cases h
            exact List.mem_cons_self _ _

theorem pickLatest_isMax {l : List Entry} {m : Entry} (h : pickLatest l = some m) :
    ∀ x ∈ l, x.timestamp ≤ m.timestamp := by
  induction l generalizing m with
  | nil => simp [pickLatest] at h
  | cons e rest ih =>
      simp only [pickLatest] at h
      intro x hx
      cases hr : pickLatest rest with
      | none =>
          rw [hr] at h
          cases h
          rcases List.mem_cons.mp hx with hx | hx
          · exact le_of_eq (congrArg Entry.timestamp hx)
          · rw [(pickLatest_eq_none rest).mp hr] at hx
            simp at hx
      | some m₁ =>
          rw [hr] at h
          by_cases hlt : e.timestamp < m₁.timestamp
          · simp only [hlt, if_true] at h
            cases h
            rcases List.mem_cons.mp hx with hx | hx
            · exact le_of_lt (hx ▸ hlt)
            · exact ih hr x hx
          · simp only [hlt, if_false] at h
            cases h
            rcases List.mem_cons.mp hx with hx | hx
            · exact le_of_eq (congrArg Entry.timestamp hx)
            · exact le_trans (ih hr x hx) (le_of_not_lt hlt)

/-- If `e` strictly dominates every other element's timestamp, the
latest-picked record is `e` itself. -/
theorem pickLatest_eq_of_strict_max {l : List Entry} {e : Entry} (he : e ∈ l)
    (hmax : ∀ x ∈ l, x ≠ e → x.timestamp < e.timestamp) :
    pickLatest l = some e := by
  cases hp : pickLatest l with
  | none =>
      rw [(pickLatest_eq_none l).mp hp] at he
      simp at he
  | some m =>
      by_cases hme : m = e
      · rw [hme]
      · have h₁ : m.timestamp < e.timestamp := hmax m (pickLatest_mem hp) hme
        have h₂ : e.timestamp ≤ m.timestamp := pickLatest_isMax hp e he
        exact absurd h₁ (not_lt_of_le h₂)

theorem latestEntry_eq_of_strict_max {log : List Entry} {rk : Nat} {col : String}
    {e : Entry} (he : e ∈ log) (hrk : e.rowKey = rk) (hcol : e.column = col)
    (hmax : ∀ x ∈ log, x.rowKey = rk → x.column = col → x ≠ e →
      x.timestamp < e.timestamp) :
    latestEntry log rk col = some e := by
  unfold latestEntry
  apply pickLatest_eq_of_strict_max
  · exact List.mem_filter.mpr ⟨he, by simp [entryMatches, hrk, hcol]⟩
  · intro x hx hxe
    have hx₁ := List.mem_filter.mp hx
    have hx₂ : x.rowKey = rk ∧ x.column = col := by
      have := hx₁.2
      simp only [entryMatches, Bool.and_eq_true, beq_iff_eq] at this
      exact this
    exact hmax x hx₁.1 hx₂.1 hx₂.2 hxe

/-! ### Lemmas on `latestEntry`, `colsOf`, `sortedRowKeys` -/

theorem latestEntry_spec {log : List Entry} {rk : Nat} {col : String} {e : Entry}
    (h : latestEntry log rk col = some e) :
    e ∈ log ∧ e.rowKey = rk ∧ e.column = col
      ∧ ∀ x ∈ log, x.rowKey = rk → x.column = col → x.timestamp ≤ e.timestamp := by
  unfold latestEntry at h
  have hmem := pickLatest_mem h
  have hf := List.mem_filter.mp hmem
  have hm : e.rowKey = rk ∧ e.column = col := by
    have := hf.2
    simp only [entryMatches, Bool.and_eq_true, beq_iff_eq] at this
    exact this
  refine ⟨hf.1, hm.1, hm.2, ?_⟩
  intro x hx hxr hxc
  exact pickLatest_isMax h x
    (List.mem_filter.mpr ⟨hx, by simp [entryMatches, hxr, hxc]⟩)

theorem latestEntry_isSome_iff {log : List Entry} {rk : Nat} {col : String} :
    (latestEntry log rk col).isSome
      ↔ ∃ e ∈ log, e.rowKey = rk ∧ e.column = col := by
  constructor
  · intro h
    obtain ⟨e, he⟩ := Option.isSome_iff_exists.mp h
    have := latestEntry_spec he
    exact ⟨e, this.1, this.2.1, this.2.2.1⟩
  · intro ⟨e, he, hr, hc⟩
    cases hp : latestEntry log rk col with
    | some _ => rfl
    | none =>
        unfold latestEntry at hp
        have : log.filter (entryMatches rk col) = [] :=
          (pickLatest_eq_none _).mp hp
        have : e ∈ ([] : List Entry) := by
          rw [← this]
          exact List.mem_filter.mpr ⟨he, by simp [entryMatches, hr, hc]⟩
        simp at this

theorem mem_colsOf {log : List Entry} {rk : Nat} {c : String} :
    c ∈ colsOf log rk ↔ ∃ e ∈ log, e.rowKey = rk ∧ e.column = c := by
  unfold colsOf
  rw [(List.perm_insertionSort _ _).mem_iff, List.mem_dedup]
  simp only [List.mem_map, List.mem_filter, beq_iff_eq]
  constructor
  · intro ⟨e, ⟨he, hr⟩, hc⟩
    exact ⟨e, he, hr, hc⟩
  · intro ⟨e, he, hr, hc⟩
    exact ⟨e, ⟨he, hr⟩, hc⟩

theorem colsOf_nodup (log : List Entry) (rk : Nat) : (colsOf log rk).Nodup :=
  (List.perm_insertionSort _ _).nodup_iff.mpr (List.nodup_dedup _)

theorem mem_sortedRowKeys {log : List Entry} {rk : Nat} :
    rk ∈ sortedRowKeys log ↔ ∃ e ∈ log, e.rowKey = rk := by
  unfold sortedRowKeys
  rw [(List.perm_insertionSort _ _).mem_iff, List.mem_dedup]
  simp [List.mem_map, eq_comm]

theorem sortedRowKeys_nodup (log : List Entry) : (sortedRowKeys log).Nodup :=
  (List.perm_insertionSort _ _).nodup_iff.mpr (List.nodup_dedup _)

theorem sortedRowKeys_sorted (log : List Entry) :
    (sortedRowKeys log).Sorted (· ≤ ·) :=
  List.sorted_insertionSort _ _

theorem valAt_eq {log : List Entry} {rk : Nat} {c : String} {e : Entry}
    (h : latestEntry log rk c = some e) : valAt log rk c = e.value := by
  simp [valAt, h]

/-! ### C1 -/

/-- C1: with at least two appended versions for `(rk, col)`, a read
through a freshly constructed `Row` handle (empty `_data` cache)
returns the value of the greatest-timestamp entry; and the handle,
having cached that value, keeps returning it against any later store
state (e.g. after further writes through other handles) until a new
handle is fetched. -/
theorem read_latest_version_and_stale_cache
    (st : KSState) (rk : Nat) (col : String) (e eOld : Entry)
    (he : e ∈ st.log) (hrk : e.rowKey = rk) (hcol : e.column = col)
    (heOld : eOld ∈ st.log) (hrkOld : eOld.rowKey = rk)
    (hcolOld : eOld.column = col) (hne : eOld ≠ e)
    (hmax : ∀ x ∈ st.log, x.rowKey = rk → x.column = col → x ≠ e →
      x.timestamp < e.timestamp) :
    (Row.getItem st (freshRow rk) col).1 = some e.value
    ∧ ∀ st₂ : KSState,
        (Row.getItem st₂ ((Row.getItem st (freshRow rk) col).2) col).1
          = some e.value := by
  have hle : latestEntry st.log rk col = some e :=
    latestEntry_eq_of_strict_max he hrk hcol hmax
  constructor
  · simp [Row.getItem, freshRow, dictGet, hle]
  · intro st₂
    simp [Row.getItem, freshRow, dictGet, dictSet, hle]

/-- C1 witness: a concrete log where `fur` was written twice for row 1;
the fresh read returns the second value, and the handle still returns
it after a third write lands through another handle. -/
theorem read_latest_version_and_stale_cache_witness :
    (Row.getItem ⟨[⟨1, "fur", .str "white", 0⟩,
                   ⟨1, "fur", .str "white and gray", 1⟩], 2⟩
        (freshRow 1) "fur").1 = some (.str "white and gray")
    ∧ (Row.getItem
        (KSState.append ⟨[⟨1, "fur", .str "white", 0⟩,
                          ⟨1, "fur", .str "white and gray", 1⟩], 2⟩
          1 "fur" (.str "brown"))
        ((Row.getItem ⟨[⟨1, "fur", .str "white", 0⟩,
                        ⟨1, "fur", .str "white and gray", 1⟩], 2⟩
            (freshRow 1) "fur").2) "fur").1 = some (.str "white and gray") := by
  have h := read_latest_version_and_stale_cache
    ⟨[⟨1, "fur", .str "white", 0⟩, ⟨1, "fur", .str "white and gray", 1⟩], 2⟩
    1 "fur" ⟨1, "fur", .str "white and gray", 1⟩ ⟨1, "fur", .str "white", 0⟩
    (by decide) (by decide) (by decide) (by decide) (by decide) (by decide)
    (by decide) (by decide)
  exact ⟨h.1, h.2 _⟩

/-! ### Lemmas on `row_iterator` over the grouped scan -/

theorem rowIteratorGo_group (g : List (Nat × String × Json)) :
    ∀ (rest : List (Nat × String × Json)) (curr : Nat)
      (accum : List (String × Option Json)), (∀ t ∈ g, t.1 = curr) →
      rowIteratorGo curr accum (g ++ rest)
        = rowIteratorGo curr
            (g.foldl (fun a t => dictSet a t.2.1 (some t.2.2)) accum) rest := by
  induction g with
  | nil => intro rest curr accum _; rfl
  | cons t g₁ ih =>
      intro rest curr accum hconst
      obtain ⟨rk, c, v⟩ := t
      have hrk : rk = curr := hconst (rk, c, v) (List.mem_cons_self _ _)
      subst hrk
      simp only [List.cons_append, rowIteratorGo, if_pos rfl]
      exact ih rest rk (dictSet accum c (some v))
        (fun t ht => hconst t (List.mem_cons_of_mem _ ht))

theorem rowIteratorGo_emit (curr : Nat) (accum : List (String × Option Json))
    (l : List (Nat × String × Json))
    (h : ∀ t, l.head? = some t → t.1 ≠ curr) :
    rowIteratorGo curr accum l = ⟨some curr, accum⟩ :: rowIterator l := by
  cases l with
  | nil => rfl
  | cons t rest =>
      obtain ⟨rk, c, v⟩ := t
      have hne : rk ≠ curr := h (rk, c, v) rfl
      simp only [rowIteratorGo, if_neg hne, rowIterator]

theorem rowIterator_flatMap (g : Nat → List (Nat × String × Json)) :
    ∀ ks : List Nat, ks.Nodup →
      (∀ rk ∈ ks, g rk ≠ [] ∧ ∀ t ∈ g rk, t.1 = rk) →
      rowIterator (ks.flatMap g)
        = ks.map (fun rk => ⟨some rk, buildData (g rk)⟩) := by
  intro ks
  induction ks with
  | nil => intro _ _; rfl
  | cons rk ks' ih =>
      intro hnd hg
      obtain ⟨hne, hconst⟩ := hg rk (List.mem_cons_self _ _)
      have hnotmem : rk ∉ ks' := (List.nodup_cons.mp hnd).1
      cases hgr : g rk with
      | nil => exact absurd hgr hne
      | cons t₀ g₁ =>
          obtain ⟨rk₀, c₀, v₀⟩ := t₀
          have hrk₀ : rk₀ = rk :=
            hconst (rk₀, c₀, v₀) (by rw [hgr]; exact List.mem_cons_self _ _)
          subst hrk₀
          have hconst₁ : ∀ t ∈ g₁, t.1 = rk₀ := fun t ht =>
            hconst t (by rw [hgr]; exact List.mem_cons_of_mem _ ht)
          have hstep :
              rowIterator ((rk₀ :: ks').flatMap g)
                = rowIteratorGo rk₀
                    (g₁.foldl (fun a t => dictSet a t.2.1 (some t.2.2))
                      [(c₀, some v₀)]) (ks'.flatMap g) := by
            rw [List.flatMap_cons, hgr]
            simp only [List.cons_append, rowIterator]
            exact rowIteratorGo_group g₁ (ks'.flatMap g) rk₀ [(c₀, some v₀)]
              hconst₁
          have haccum :
              g₁.foldl (fun a t => dictSet a t.2.1 (some t.2.2)) [(c₀, some v₀)]
                = buildData (g rk₀) := by
            rw [hgr]; rfl
          have hhead : ∀ t, (ks'.flatMap g).head? = some t → t.1 ≠ rk₀ := by
            intro t ht
            have hmem : t ∈ ks'.flatMap g := by
              cases hl : ks'.flatMap g with
              | nil => rw [hl] at ht; simp at ht
              | cons a l =>
                  rw [hl] at ht
                  simp only [List.head?_cons, Option.some.injEq] at ht
                  cases ht
                  exact List.mem_cons_self _ _
            obtain ⟨rk₂, hrk₂, htg⟩ := List.mem_flatMap.mp hmem
            have : t.1 = rk₂ := (hg rk₂ (List.mem_cons_of_mem _ hrk₂)).2 t htg
            rw [this]
            intro hc
            exact hnotmem (hc ▸ hrk₂)
          rw [hstep, haccum,
            rowIteratorGo_emit rk₀ (buildData (g rk₀)) (ks'.flatMap g) hhead,
            ih (List.nodup_cons.mp hnd).2
              (fun rk₂ h₂ => hg rk₂ (List.mem_cons_of_mem _ h₂))]
          rfl

theorem foldl_dictSet_append (l : List (Nat × String × Json)) :
    ∀ accum : List (String × Option Json),
      (l.map (fun t => t.2.1)).Nodup →
      (∀ t ∈ l, ∀ p ∈ accum, p.1 ≠ t.2.1) →
      l.foldl (fun a t => dictSet a t.2.1 (some t.2.2)) accum
        = accum ++ l.map (fun t => (t.2.1, some t.2.2)) := by
  induction l with
  | nil => intro accum _ _; simp
  | cons t l₁ ih =>
      intro accum hnd hdisj
      obtain ⟨rk, c, v⟩ := t
      simp only [List.foldl_cons]
      rw [dictSet_of_not_mem
        (fun p hp => hdisj (rk, c, v) (List.mem_cons_self _ _) p hp)]
      rw [ih (accum ++ [(c, some v)]) (by simpa using (List.nodup_cons.mp hnd).2) ?_]
      · simp
      · intro t₁ ht₁ p hp
        rcases List.mem_append.mp hp with hp | hp
        · exact hdisj t₁ (List.mem_cons_of_mem _ ht₁) p hp
        · simp only [List.mem_singleton] at hp
          subst hp
          intro hc
          have : c ∈ l₁.map (fun t => t.2.1) :=
            List.mem_map.mpr ⟨t₁, ht₁, hc.symm⟩
          exact (List.nodup_cons.mp hnd).1 this

theorem buildData_eq (l : List (Nat × String × Json))
    (hnd : (l.map (fun t => t.2.1)).Nodup) :
    buildData l = l.map (fun t => (t.2.1, some t.2.2)) := by
  unfold buildData
  rw [foldl_dictSet_append l [] hnd (by simp)]
  simp

/-- The grouped scan over any duplicate-free key list whose keys all
occur in the log folds into one `Row` per key, in key order, holding
the latest value per distinct column. -/
theorem rowIterator_scanGroups (log : List Entry) (keys : List Nat)
    (hnd : keys.Nodup) (hm : ∀ rk ∈ keys, ∃ e ∈ log, e.rowKey = rk) :
    rowIterator (scanGroups log keys)
      = keys.map (fun rk =>
          ⟨some rk, (colsOf log rk).map (fun c => (c, some (valAt log rk c)))⟩) := by
  unfold scanGroups
  rw [rowIterator_flatMap (groupOf log) keys hnd ?_]
  · apply List.map_congr_left
    intro rk _
    have : buildData (groupOf log rk)
        = (groupOf log rk).map (fun t => (t.2.1, some t.2.2)) := by
      apply buildData_eq
      unfold groupOf
      rw [List.map_map]
      have hcomp : ((fun t : Nat × String × Json => t.2.1)
          ∘ fun c => (rk, c, valAt log rk c)) = fun c => c := rfl
      rw [hcomp]
      simpa using colsOf_nodup log rk
    rw [this]
    unfold groupOf
    rw [List.map_map]
    rfl
  · intro rk hrk
    constructor
    · obtain ⟨e, he, hr⟩ := hm rk hrk
      have : e.column ∈ colsOf log rk := mem_colsOf.mpr ⟨e, he, hr, rfl⟩
      unfold groupOf
      intro hcontra
      rw [List.map_eq_nil] at hcontra
      rw [hcontra] at this
      simp at this
    · intro t ht
      unfold groupOf at ht
      obtain ⟨c, _, hct⟩ := List.mem_map.mp ht
      rw [← hct]

theorem dictGet_rowData (log : List Entry) (rk : Nat) (c : String) :
    dictGet ((colsOf log rk).map (fun c₁ => (c₁, some (valAt log rk c₁)))) c
      = (latestEntry log rk c).map (fun e => some e.value) := by
  rw [dictGet_map_key (fun c₁ => some (valAt log rk c₁)) (colsOf log rk) c]
  cases hle : latestEntry log rk c with
  | some e =>
      have hspec := latestEntry_spec hle
      have hmem : c ∈ colsOf log rk :=
        mem_colsOf.mpr ⟨e, hspec.1, hspec.2.1, hspec.2.2.1⟩
      rw [if_pos hmem, valAt_eq hle]
      rfl
  | none =>
      have hmem : c ∉ colsOf log rk := by
        intro hc
        have := latestEntry_isSome_iff.mpr (mem_colsOf.mp hc)
        rw [hle] at this
        simp at this
      rw [if_neg hmem]
      rfl

theorem ksAll_eq (log : List Entry) :
    ksAll log = (sortedRowKeys log).map (fun rk =>
      ⟨some rk, (colsOf log rk).map (fun c => (c, some (valAt log rk c)))⟩) := by
  unfold ksAll
  exact rowIterator_scanGroups log (sortedRowKeys log) (sortedRowKeys_nodup log)
    (fun rk hrk => mem_sortedRowKeys.mp hrk)

theorem queryRows_eq (log : List Entry) (items : List (Nat × Json))
    (pred : Json → Bool) :
    queryRows log items pred
      = ((sortedRowKeys log).filter
          (fun rk => (matchRowKeys items pred).contains rk)).map (fun rk =>
            ⟨some rk, (colsOf log rk).map (fun c => (c, some (valAt log rk c)))⟩) := by
  unfold queryRows
  exact rowIterator_scanGroups log _ ((sortedRowKeys_nodup log).filter _)
    (fun rk hrk => mem_sortedRowKeys.mp (List.mem_of_mem_filter hrk))

/-! ### C3 -/

/-- C3: `KeySpace.all()` and `Index.query()` both follow the
scan-grouping rule: distinct row keys ascending, one emitted `Row` per
key, each holding — per distinct column of that key — the value of the
greatest-timestamp record for that `(rowKey, column)` pair. -/
theorem scan_grouping_rule (log : List Entry) :
    ((sortedRowKeys log).Sorted (· ≤ ·) ∧ (sortedRowKeys log).Nodup
      ∧ ∀ rk, rk ∈ sortedRowKeys log ↔ ∃ e ∈ log, e.rowKey = rk)
    ∧ (ksAll log).map (·.identifier) = (sortedRowKeys log).map some
    ∧ (∀ r ∈ ksAll log, ∀ rk, r.identifier = some rk →
        ∀ c, dictGet r.data c = (latestEntry log rk c).map (fun e => some e.value))
    ∧ (∀ rk c e, latestEntry log rk c = some e →
        e ∈ log ∧ e.rowKey = rk ∧ e.column = c
          ∧ ∀ x ∈ log, x.rowKey = rk → x.column = c →
              x.timestamp ≤ e.timestamp)
    ∧ ∀ (items : List (Nat × Json)) (pred : Json → Bool),
        (queryRows log items pred).map (·.identifier)
          = ((sortedRowKeys log).filter
              (fun rk => (matchRowKeys items pred).contains rk)).map some
        ∧ ∀ r ∈ queryRows log items pred, ∀ rk, r.identifier = some rk →
            ∀ c, dictGet r.data c
              = (latestEntry log rk c).map (fun e => some e.value) := by
  refine ⟨⟨sortedRowKeys_sorted log, sortedRowKeys_nodup log,
    fun rk => mem_sortedRowKeys⟩, ?_, ?_, ?_, ?_⟩
  · rw [ksAll_eq, List.map_map]
    rfl
  · intro r hr rk hid c
    rw [ksAll_eq] at hr
    obtain ⟨rk₁, _, hr₁⟩ := List.mem_map.mp hr
    have hrk : rk₁ = rk := by
      rw [← hr₁] at hid
      simpa using hid
    subst hrk
    rw [← hr₁]
    exact dictGet_rowData log rk₁ c
  · intro rk c e he
    exact latestEntry_spec he
  · intro items pred
    constructor
    · rw [queryRows_eq, List.map_map]
      rfl
    · intro r hr rk hid c
      rw [queryRows_eq] at hr
      obtain ⟨rk₁, _, hr₁⟩ := List.mem_map.mp hr
      have hrk : rk₁ = rk := by
        rw [← hr₁] at hid
        simpa using hid
      subst hrk
      rw [← hr₁]
      exact dictGet_rowData log rk₁ c

/-- C3 witness: two row keys, one column written twice for row 1; the
scan emits rows 1 and 2 in order and row 1 carries the second
version. -/
theorem scan_grouping_rule_witness :
    (ksAll [⟨1, "k1", Json.str "old", 0⟩, ⟨1, "k1", Json.str "new", 1⟩,
        ⟨2, "k2", Json.str "b", 2⟩]).map (·.identifier) = [some 1, some 2]
    ∧ dictGet (Row.data ⟨some 1, [("k1", some (Json.str "new"))]⟩) "k1"
        = some (some (Json.str "new")) := by
  have h := scan_grouping_rule
    [⟨1, "k1", Json.str "old", 0⟩, ⟨1, "k1", Json.str "new", 1⟩,
     ⟨2, "k2", Json.str "b", 2⟩]
  refine ⟨h.2.1.trans (by decide), ?_⟩
  have hmem : (⟨some 1, [("k1", some (Json.str "new"))]⟩ : Row)
      ∈ ksAll [⟨1, "k1", Json.str "old", 0⟩, ⟨1, "k1", Json.str "new", 1⟩,
        ⟨2, "k2", Json.str "b", 2⟩] := by decide
  exact (h.2.2.1 _ hmem 1 rfl "k1").trans (by decide)

/-! ### Lemmas for index maintenance -/

theorem dictGet_append [DecidableEq κ] (a b : List (κ × α)) (k : κ) :
    dictGet (a ++ b) k
      = match dictGet a k with
        | some v => some v
        | none => dictGet b k := by
  induction a with
  | nil => rfl
  | cons p rest ih =>
      obtain ⟨k₁, v₁⟩ := p
      by_cases hk : k₁ = k <;> simp [dictGet, hk, ih]

theorem dictGet_filter_ne_self (l : List (Nat × Json)) (rk : Nat) :
    dictGet (l.filter (fun p => !(p.1 == rk))) rk = none := by
  rw [dictGet_eq_none_iff]
  intro p hp
  have := (List.mem_filter.mp hp).2
  simpa using this

theorem dictGet_filter_ne_append (l : List (Nat × Json)) (rk : Nat) (x : Json) :
    dictGet (l.filter (fun p => !(p.1 == rk)) ++ [(rk, x)]) rk = some x := by
  rw [dictGet_append, dictGet_filter_ne_self]
  simp [dictGet]

theorem dictGet_filter_ne_other (l : List (Nat × Json)) {rk k : Nat}
    (h : k ≠ rk) :
    dictGet (l.filter (fun p => !(p.1 == rk))) k = dictGet l k := by
  induction l with
  | nil => rfl
  | cons p rest ih =>
      obtain ⟨k₁, v₁⟩ := p
      by_cases h₁ : k₁ = rk
      · subst h₁
        have hkk : ¬(k₁ = k) := fun hc => h hc.symm
        simp [List.filter_cons, dictGet, hkk, ih]
      · by_cases h₂ : k₁ = k
        · subst h₂
          simp [List.filter_cons, dictGet, h₁]
        · simp [List.filter_cons, dictGet, h₁, h₂, ih]

theorem dictGet_filter_append_other (l : List (Nat × Json)) {rk k : Nat}
    (x : Json) (h : k ≠ rk) :
    dictGet (l.filter (fun p => !(p.1 == rk)) ++ [(rk, x)]) k = dictGet l k := by
  rw [dictGet_append, dictGet_filter_ne_other l h]
  cases hd : dictGet l k with
  | some v => rfl
  | none =>
      have hne : ¬(rk = k) := fun hc => h hc.symm
      simp [dictGet, hne]

theorem pickLatest_append_max {l : List Entry} {e : Entry}
    (h : ∀ x ∈ l, x.timestamp < e.timestamp) :
    pickLatest (l ++ [e]) = some e := by
  apply pickLatest_eq_of_strict_max (List.mem_append_right _ (List.mem_singleton.mpr rfl))
  intro x hx hxe
  rcases List.mem_append.mp hx with hx | hx
  · exact h x hx
  · exact absurd (List.mem_singleton.mp hx) hxe

/-- Filtering the log by a predicate that keeps every record the
projection reflects leaves `latestMatching` unchanged. -/
theorem latestMatching_filter_keep (spec : IndexSpec) (log : List Entry)
    (rk : Nat) (p : Entry → Bool)
    (h : ∀ e, entryMatches rk spec.column e && (spec.extract e.value).isSome
      → p e = true) :
    latestMatching spec (log.filter p) rk = latestMatching spec log rk := by
  unfold latestMatching
  rw [List.filter_filter]
  congr 1
  apply List.filter_congr
  intro e _
  cases hq : entryMatches rk spec.column e && (spec.extract e.value).isSome
  · simp
  · simp [h e hq]

theorem latestMatching_filter_drop (spec : IndexSpec) (log : List Entry)
    (rk : Nat) (p : Entry → Bool)
    (h : ∀ e, entryMatches rk spec.column e && (spec.extract e.value).isSome
      → p e = false) :
    latestMatching spec (log.filter p) rk = none := by
  unfold latestMatching
  rw [List.filter_filter]
  rw [show (log.filter fun e =>
      (entryMatches rk spec.column e && (spec.extract e.value).isSome) && p e) = []
    from List.filter_eq_nil_iff.mpr ?_]
  · rfl
  · intro e _
    intro hc
    rw [Bool.and_eq_true] at hc
    have := h e hc.1
    rw [this] at hc
    exact Bool.false_ne_true hc.2

theorem latestMatching_append_nonmatching (spec : IndexSpec) (log : List Entry)
    (rk : Nat) {e : Entry}
    (h : (entryMatches rk spec.column e && (spec.extract e.value).isSome) = false) :
    latestMatching spec (log ++ [e]) rk = latestMatching spec log rk := by
  unfold latestMatching
  rw [List.filter_append]
  have : List.filter (fun e₁ =>
      entryMatches rk spec.column e₁ && (spec.extract e₁.value).isSome) [e] = [] := by
    simp [List.filter, h]
  rw [this, List.append_nil]

theorem latestMatching_none_of_no_entry (spec : IndexSpec) (log : List Entry)
    (rk : Nat) (h : hasColEntry log rk spec.column = false) :
    latestMatching spec log rk = none := by
  unfold latestMatching
  rw [show (log.filter fun e =>
      entryMatches rk spec.column e && (spec.extract e.value).isSome) = []
    from List.filter_eq_nil_iff.mpr ?_]
  · rfl
  · intro e he hc
    rw [Bool.and_eq_true] at hc
    unfold hasColEntry at h
    have : log.any (entryMatches rk spec.column) = true :=
      List.any_eq_true.mpr ⟨e, he, hc.1⟩
    rw [h] at this
    exact Bool.false_ne_true this

theorem length_filter_key_le_one {l : List (Nat × Json)} {rk : Nat}
    (hnd : (l.map Prod.fst).Nodup) :
    (l.filter (fun p => p.1 == rk)).length ≤ 1 := by
  induction l with
  | nil => simp
  | cons p rest ih =>
      obtain ⟨k, v⟩ := p
      simp only [List.map_cons, List.nodup_cons] at hnd
      by_cases hk : k = rk
      · subst hk
        have : rest.filter (fun p => p.1 == k) = [] := by
          apply List.filter_eq_nil_iff.mpr
          intro q hq hc
          exact hnd.1 (List.mem_map.mpr ⟨q, hq, by simpa using hc⟩)
        simp [List.filter_cons, this]
      · simpa [List.filter_cons, hk] using ih hnd.2

theorem IdxInv_empty (spec : IndexSpec) : IdxInv spec IdxState.empty := by
  refine ⟨?_, ?_, ?_⟩
  · intro e he
    simp [IdxState.empty, KSState.empty] at he
  · simp [IdxState.empty]
  · intro rk
    simp [IdxState.empty, KSState.empty, dictGet, latestMatching, pickLatest]

theorem IdxInv_step (spec : IndexSpec) (s : IdxState) (op : Op)
    (h : IdxInv spec s) : IdxInv spec (IdxState.step spec s op) := by
  obtain ⟨h₁, h₂, h₃⟩ := h
  cases op with
  | append rk col v =>
      cases hx : (if col = spec.column then spec.extract v else none) with
      | some x =>
          have hcol : col = spec.column := by
            by_cases hc : col = spec.column
            · exact hc
            · rw [if_neg hc] at hx
              exact absurd hx (by simp)
          have hex : spec.extract v = some x := by rwa [if_pos hcol] at hx
          simp only [IdxState.step, hx]
          refine ⟨?_, ?_, ?_⟩
          · intro e he
            simp only [KSState.append] at he ⊢
            rcases List.mem_append.mp he with he | he
            · exact lt_trans (h₁ e he) (Nat.lt_succ_self _)
            · rw [List.mem_singleton] at he
              subst he
              exact Nat.lt_succ_self _
          · rw [List.map_append, List.nodup_append]
            refine ⟨((List.filter_sublist _).map _).nodup h₂, List.nodup_singleton _, ?_⟩
            intro k hk
            obtain ⟨p, hp, hpk⟩ := List.mem_map.mp hk
            have hne := (List.mem_filter.mp hp).2
            simp only [List.map_cons, List.map_nil, List.mem_singleton]
            intro hc
            subst hc
            rw [← hpk] at hne
            simp at hne
          · intro rk₁
            by_cases hr : rk₁ = rk
            · subst hr
              rw [dictGet_filter_ne_append]
              have hlm : latestMatching spec
                  ((s.ks.append rk₁ col v).log) rk₁
                    = some ⟨rk₁, col, v, s.ks.clock⟩ := by
                unfold latestMatching KSState.append
                rw [List.filter_append]
                have hpe : List.filter (fun e =>
                    entryMatches rk₁ spec.column e && (spec.extract e.value).isSome)
                      [⟨rk₁, col, v, s.ks.clock⟩]
                    = [⟨rk₁, col, v, s.ks.clock⟩] := by
                  simp [List.filter, entryMatches, hcol, hex]
                rw [hpe]
                apply pickLatest_append_max
                intro y hy
                exact h₁ y (List.mem_filter.mp hy).1
              rw [hlm]
              simp [hex]
            · rw [dictGet_filter_append_other _ x hr, h₃ rk₁]
              have : latestMatching spec ((s.ks.append rk col v).log) rk₁
                  = latestMatching spec s.ks.log rk₁ := by
                unfold KSState.append
                apply latestMatching_append_nonmatching
                simp only [entryMatches]
                have : (rk == rk₁) = false := by
                  simp
                  exact fun hc => hr hc.symm
                simp [this]
              rw [this]
      | none =>
          simp only [IdxState.step, hx]
          refine ⟨?_, h₂, ?_⟩
          · intro e he
            simp only [KSState.append] at he ⊢
            rcases List.mem_append.mp he with he | he
            · exact lt_trans (h₁ e he) (Nat.lt_succ_self _)
            · rw [List.mem_singleton] at he
              subst he
              exact Nat.lt_succ_self _
          · intro rk₁
            rw [h₃ rk₁]
            have : latestMatching spec ((s.ks.append rk col v).log) rk₁
                = latestMatching spec s.ks.log rk₁ := by
              unfold KSState.append
              apply latestMatching_append_nonmatching
              by_cases hc : col = spec.column
              · rw [if_pos hc] at hx
                simp [entryMatches, hx]
              · have : (col == spec.column) = false := by simpa using hc
                simp [entryMatches, this]
            rw [this]
  | deleteRow rk =>
      simp only [IdxState.step]
      refine ⟨?_, ?_, ?_⟩
      · intro e he
        exact h₁ e (List.mem_filter.mp he).1
      · by_cases hf : hasColEntry s.ks.log rk spec.column = true
        · rw [if_pos hf]
          exact ((List.filter_sublist _).map _).nodup h₂
        · rw [if_neg hf]
          exact h₂
      · intro rk₁
        by_cases hr : rk₁ = rk
        · subst hr
          have hdrop : latestMatching spec
              (s.ks.log.filter (fun e => !(e.rowKey == rk₁))) rk₁ = none := by
            apply latestMatching_filter_drop
            intro e he
            rw [Bool.and_eq_true] at he
            have : (e.rowKey == rk₁) = true := by
              have := he.1
              simp only [entryMatches, Bool.and_eq_true] at this
              exact this.1
            simp [this]
          rw [hdrop]
          by_cases hf : hasColEntry s.ks.log rk₁ spec.column = true
          · rw [if_pos hf, dictGet_filter_ne_self]
            rfl
          · rw [if_neg hf, h₃ rk₁,
              latestMatching_none_of_no_entry spec _ _ (by simpa using hf)]
        · have hkeep : latestMatching spec
              (s.ks.log.filter (fun e => !(e.rowKey == rk))) rk₁
                = latestMatching spec s.ks.log rk₁ := by
            apply latestMatching_filter_keep
            intro e he
            rw [Bool.and_eq_true] at he
            have : e.rowKey = rk₁ := by
              have := he.1
              simp only [entryMatches, Bool.and_eq_true, beq_iff_eq] at this
              exact this.1
            simp [this, fun hc : rk₁ = rk => hr hc]
          rw [hkeep]
          by_cases hf : hasColEntry s.ks.log rk spec.column = true
          · rw [if_pos hf, dictGet_filter_ne_other _ hr, h₃ rk₁]
          · rw [if_neg hf]
            exact h₃ rk₁
  | deleteColumn rk col =>
      simp only [IdxState.step]
      refine ⟨?_, ?_, ?_⟩
      · intro e he
        exact h₁ e (List.mem_filter.mp he).1
      · by_cases hf : col = spec.column ∧ hasColEntry s.ks.log rk col = true
        · rw [if_pos hf]
          exact ((List.filter_sublist _).map _).nodup h₂
        · rw [if_neg hf]
          exact h₂
      · intro rk₁
        by_cases hc : col = spec.column
        · by_cases hr : rk₁ = rk
          · subst hr
            have hdrop : latestMatching spec
                (s.ks.log.filter (fun e => !(entryMatches rk₁ col e))) rk₁
                  = none := by
              apply latestMatching_filter_drop
              intro e he
              rw [Bool.and_eq_true] at he
              have := he.1
              rw [← hc] at this
              simp [this]
            rw [hdrop]
            by_cases hf : hasColEntry s.ks.log rk₁ col = true
            · rw [if_pos ⟨hc, hf⟩, dictGet_filter_ne_self]
              rfl
            · rw [if_neg (fun hcon => hf hcon.2), h₃ rk₁,
                latestMatching_none_of_no_entry spec _ _ ?_]
              rw [← hc]
              simpa using hf
          · have hkeep : latestMatching spec
                (s.ks.log.filter (fun e => !(entryMatches rk col e))) rk₁
                  = latestMatching spec s.ks.log rk₁ := by
              apply latestMatching_filter_keep
              intro e he
              rw [Bool.and_eq_true] at he
              have hek : e.rowKey = rk₁ := by
                have := he.1
                simp only [entryMatches, Bool.and_eq_true, beq_iff_eq] at this
                exact this.1
              have : (e.rowKey == rk) = false := by
                simp only [beq_eq_false_iff_ne, ne_eq, hek]
                exact fun hcon => hr hcon
              simp [entryMatches, this]
            rw [hkeep]
            by_cases hf : hasColEntry s.ks.log rk col = true
            · rw [if_pos ⟨hc, hf⟩, dictGet_filter_ne_other _ hr, h₃ rk₁]
            · rw [if_neg (fun hcon => hf hcon.2)]
              exact h₃ rk₁
        · rw [if_neg (fun hcon => hc hcon.1)]
          have hkeep : latestMatching spec
              (s.ks.log.filter (fun e => !(entryMatches rk col e))) rk₁
                = latestMatching spec s.ks.log rk₁ := by
            apply latestMatching_filter_keep
            intro e he
            rw [Bool.and_eq_true] at he
            have hcol : e.column = spec.column := by
              have := he.1
              simp only [entryMatches, Bool.and_eq_true, beq_iff_eq] at this
              exact this.2
            have : (e.column == col) = false := by
              simp only [beq_eq_false_iff_ne, ne_eq, hcol]
              exact fun hcon => hc hcon.symm
            simp [entryMatches, this]
          rw [hkeep, h₃ rk₁]

theorem IdxInv_run (spec : IndexSpec) (ops : List Op) :
    IdxInv spec (IdxState.run spec ops) := by
  unfold IdxState.run
  suffices h : ∀ (l : List Op) (s : IdxState), IdxInv spec s →
      IdxInv spec (l.foldl (IdxState.step spec) s) from
    h ops IdxState.empty (IdxInv_empty spec)
  intro l
  induction l with
  | nil => intro s hs; exact hs
  | cons op l₁ ih =>
      intro s hs
      exact ih (IdxState.step spec s op) (IdxInv_step spec s op hs)

/-! ### C2 -/

/-- C2: in every reachable state — any sequence of appends (and
deletes) from scratch — the projection holds at most one entry per row
key; appending a record whose column matches with non-absent extraction
replaces the row key's projection entry with the new extraction;
appending one with absent extraction leaves the projection unchanged;
and the projection value for a row key is exactly the extraction of its
latest matching record. -/
theorem index_maintenance (spec : IndexSpec) (ops : List Op) (rk : Nat) :
    (((IdxState.run spec ops).items.filter (fun p => p.1 == rk)).length ≤ 1)
    ∧ (∀ col v x, col = spec.column → spec.extract v = some x →
        dictGet (IdxState.step spec (IdxState.run spec ops)
          (Op.append rk col v)).items rk = some x)
    ∧ (∀ col v, spec.extract v = none →
        dictGet (IdxState.step spec (IdxState.run spec ops)
            (Op.append rk col v)).items rk
          = dictGet (IdxState.run spec ops).items rk)
    ∧ dictGet (IdxState.run spec ops).items rk
        = (latestMatching spec (IdxState.run spec ops).ks.log rk).bind
            (fun e => spec.extract e.value) := by
  obtain ⟨h₁, h₂, h₃⟩ := IdxInv_run spec ops
  refine ⟨length_filter_key_le_one h₂, ?_, ?_, h₃ rk⟩
  · intro col v x hcol hx
    have hmatch : (if col = spec.column then spec.extract v else none)
        = some x := by
      rw [if_pos hcol]
      exact hx
    simp only [IdxState.step, hmatch]
    exact dictGet_filter_ne_append _ rk x
  · intro col v hx
    have hmatch : (if col = spec.column then spec.extract v else none)
        = none := by
      by_cases hc : col = spec.column
      · rw [if_pos hc]
        exact hx
      · rw [if_neg hc]
    simp only [IdxState.step, hmatch]

/-- C2 witness: a `$.k1` index on column `data`; the second append
matches with a fresh extraction and replaces the projection entry, the
third has an absent extraction and leaves it in place. -/
theorem index_maintenance_witness :
    (((IdxState.run sampleSpec
        [Op.append 1 "data" (Json.obj [("k1", Json.str "a")])]).items.filter
          (fun p => p.1 == 1)).length ≤ 1)
    ∧ dictGet (IdxState.step sampleSpec
        (IdxState.run sampleSpec
          [Op.append 1 "data" (Json.obj [("k1", Json.str "a")])])
        (Op.append 1 "data" (Json.obj [("k1", Json.str "c")]))).items 1
      = some (Json.str "c")
    ∧ dictGet (IdxState.step sampleSpec
        (IdxState.run sampleSpec
          [Op.append 1 "data" (Json.obj [("k1", Json.str "a")])])
        (Op.append 1 "data" (Json.obj [("k2", Json.str "d")]))).items 1
      = dictGet (IdxState.run sampleSpec
          [Op.append 1 "data" (Json.obj [("k1", Json.str "a")])]).items 1 := by
  have h := index_maintenance sampleSpec
    [Op.append 1 "data" (Json.obj [("k1", Json.str "a")])] 1
  exact ⟨h.1,
    h.2.1 "data" (Json.obj [("k1", Json.str "c")]) (Json.str "c") rfl (by decide),
    h.2.2.1 "data" (Json.obj [("k2", Json.str "d")]) (by decide)⟩

/-! ### C5 -/

/-- C5: after `Row.delete()` on `rk` from any reachable state, the log
holds no record for `rk`, the projection (and `all_items()`) holds no
pair for `rk`, and no query result — for any comparison predicate —
contains a row with identifier `rk`. -/
theorem delete_cascade (spec : IndexSpec) (ops : List Op) (rk : Nat) :
    (∀ e ∈ (runThenDelete spec ops rk).ks.log, e.rowKey ≠ rk)
    ∧ (∀ p ∈ (runThenDelete spec ops rk).items, p.1 ≠ rk)
    ∧ (∀ p ∈ allItems (runThenDelete spec ops rk).items, p.1 ≠ rk)
    ∧ ∀ (pred : Json → Bool) (r : Row),
        r ∈ queryRows (runThenDelete spec ops rk).ks.log
            (runThenDelete spec ops rk).items pred →
          r.identifier ≠ some rk := by
  have hinv := IdxInv_step spec (IdxState.run spec ops) (Op.deleteRow rk)
    (IdxInv_run spec ops)
  obtain ⟨h₁, h₂, h₃⟩ := hinv
  have hlog : ∀ e ∈ (runThenDelete spec ops rk).ks.log, e.rowKey ≠ rk := by
    intro e he
    unfold runThenDelete at he
    simp only [IdxState.step] at he
    have := (List.mem_filter.mp he).2
    simpa using this
  have hnone : latestMatching spec (runThenDelete spec ops rk).ks.log rk
      = none := by
    unfold latestMatching
    rw [show ((runThenDelete spec ops rk).ks.log.filter fun e =>
        entryMatches rk spec.column e && (spec.extract e.value).isSome) = []
      from List.filter_eq_nil_iff.mpr ?_]
    · rfl
    · intro e he hc
      rw [Bool.and_eq_true] at hc
      have : e.rowKey = rk := by
        have := hc.1
        simp only [entryMatches, Bool.and_eq_true, beq_iff_eq] at this
        exact this.1
      exact hlog e he this
  have hitems : ∀ p ∈ (runThenDelete spec ops rk).items, p.1 ≠ rk := by
    have hget : dictGet (runThenDelete spec ops rk).items rk = none := by
      have := h₃ rk
      unfold runThenDelete at this hnone ⊢
      rw [this, hnone]
      rfl
    exact dictGet_eq_none_iff.mp hget
  refine ⟨hlog, hitems, ?_, ?_⟩
  · intro p hp
    exact hitems p ((List.perm_insertionSort _ _).mem_iff.mp hp)
  · intro pred r hr hid
    rw [queryRows_eq] at hr
    obtain ⟨rk₁, hrk₁, hreq⟩ := List.mem_map.mp hr
    rw [← hreq] at hid
    simp only [Option.some.injEq] at hid
    subst hid
    have hcont := (List.mem_filter.mp hrk₁).2
    have hmem : rk₁ ∈ matchRowKeys (runThenDelete spec ops rk₁).items pred := by
      simpa using hcont
    obtain ⟨p, hp, hpk⟩ := List.mem_map.mp hmem
    exact hitems p (List.mem_of_mem_filter hp) hpk

/-- C5 witness: two rows indexed under `$.k1`; deleting row 1 leaves
only row 2 anywhere — in the log, in the projection, and in an
all-matching query. -/
theorem delete_cascade_witness :
    (⟨2, "data", Json.obj [("k1", Json.str "b")], 1⟩ : Entry).rowKey ≠ 1
    ∧ ((2 : Nat), Json.str "b").1 ≠ 1
    ∧ (⟨some 2, [("data", some (Json.obj [("k1", Json.str "b")]))]⟩ : Row).identifier
        ≠ some 1 := by
  have h := delete_cascade sampleSpec
    [Op.append 1 "data" (Json.obj [("k1", Json.str "a")]),
     Op.append 2 "data" (Json.obj [("k1", Json.str "b")])] 1
  exact ⟨h.1 _ (by decide), h.2.1 _ (by decide),
    h.2.2.2 (fun _ => true) _ (by decide)⟩

/-! ### Lemmas about `MAX(row_key)` and allocation -/

theorem foldl_max_le (l : List Nat) :
    ∀ a k : Nat, l.foldl max a ≤ k ↔ a ≤ k ∧ ∀ x ∈ l, x ≤ k := by
  induction l with
  | nil => intro a k; simp
  | cons b l₁ ih =>
      intro a k
      rw [List.foldl_cons, ih (max a b) k]
      constructor
      · intro ⟨hab, hl⟩
        rw [max_le_iff] at hab
        exact ⟨hab.1, fun x hx => by
          rcases List.mem_cons.mp hx with hx | hx
          · exact hx ▸ hab.2
          · exact hl x hx⟩
      · intro ⟨ha, hl⟩
        exact ⟨max_le_iff.mpr ⟨ha, hl b (List.mem_cons_self _ _)⟩,
          fun x hx => hl x (List.mem_cons_of_mem _ hx)⟩

theorem foldl_max_mem (l : List Nat) :
    ∀ a : Nat, l.foldl max a = a ∨ ∃ x ∈ l, l.foldl max a = x := by
  induction l with
  | nil => intro a; left; rfl
  | cons b l₁ ih =>
      intro a
      rw [List.foldl_cons]
      rcases ih (max a b) with h | ⟨x, hx, hfx⟩
      · rcases max_choice a b with hm | hm
        · left; rw [h, hm]
        · right; exact ⟨b, List.mem_cons_self _ _, h.trans hm⟩
      · right; exact ⟨x, List.mem_cons_of_mem _ hx, hfx⟩

theorem le_maxRowKey {log : List Entry} {e : Entry} (h : e ∈ log) :
    e.rowKey ≤ maxRowKey log := by
  unfold maxRowKey
  have := (foldl_max_le (log.map (·.rowKey)) 0
    ((log.map (·.rowKey)).foldl max 0)).mp le_rfl
  exact this.2 e.rowKey (List.mem_map.mpr ⟨e, h, rfl⟩)

theorem maxRowKey_le {log : List Entry} {k : Nat}
    (h : ∀ e ∈ log, e.rowKey ≤ k) : maxRowKey log ≤ k := by
  apply (foldl_max_le (log.map (·.rowKey)) 0 k).mpr
  refine ⟨Nat.zero_le _, ?_⟩
  intro x hx
  obtain ⟨e, he, hex⟩ := List.mem_map.mp hx
  exact hex ▸ h e he

theorem maxRowKey_achieved {log : List Entry} (h : maxRowKey log ≠ 0) :
    ∃ e ∈ log, e.rowKey = maxRowKey log := by
  rcases foldl_max_mem (log.map (·.rowKey)) 0 with hz | ⟨x, hx, hfx⟩
  · exact absurd hz h
  · obtain ⟨e, he, hex⟩ := List.mem_map.mp hx
    exact ⟨e, he, by rw [hex, ← hfx]; rfl⟩

theorem maxRowKey_append (st : KSState) (rk : Nat) (c : String) (v : Json) :
    maxRowKey ((st.append rk c v).log) = max (maxRowKey st.log) rk := by
  unfold maxRowKey KSState.append
  rw [List.map_append, List.foldl_append]
  rfl

theorem maxRowKey_createRow (data : List (String × Json)) :
    ∀ (st : KSState) (rk : Nat), data ≠ [] →
      maxRowKey ((data.foldl (fun s cv => s.append rk cv.1 cv.2) st).log)
        = max (maxRowKey st.log) rk := by
  induction data with
  | nil => intro _ _ h; exact absurd rfl h
  | cons cv rest ih =>
      intro st rk _
      rw [List.foldl_cons]
      cases hr : rest with
      | nil =>
          rw [List.foldl_nil, maxRowKey_append]
      | cons cv₂ rest₂ =>
          rw [← hr, ih (st.append rk cv.1 cv.2) rk (by rw [hr]; simp),
            maxRowKey_append, max_assoc, max_self]

theorem createRowKeys_eq_range (ds : List (List (String × Json))) :
    ∀ st : KSState, (∀ d ∈ ds, d ≠ []) →
      createRowKeys st ds = List.range' (allocKey st.log) ds.length := by
  induction ds with
  | nil => intro _ _; rfl
  | cons d ds₁ ih =>
      intro st hne
      rw [show createRowKeys st (d :: ds₁)
          = (st.createRow d).2 :: createRowKeys (st.createRow d).1 ds₁ from rfl]
      have hd : d ≠ [] := hne d (List.mem_cons_self _ _)
      have hmax : maxRowKey ((st.createRow d).1).log
          = allocKey st.log := by
        unfold KSState.createRow
        rw [maxRowKey_createRow d st (allocKey st.log) hd]
        exact max_eq_right (Nat.le_succ _)
      have halloc : allocKey ((st.createRow d).1).log = allocKey st.log + 1 := by
        unfold allocKey
        rw [hmax]
        rfl
      rw [ih (st.createRow d).1 (fun d₁ h₁ => hne d₁ (List.mem_cons_of_mem _ h₁)),
        halloc, List.length_cons, List.range'_succ]
      rfl

/-! ### C4 -/

/-- C4 counterexample: rows 1 and 2 are created, row 2 — the
highest-keyed — is deleted, and the next allocation hands out 2 again:
the rowKey of a deleted row IS reused, where the claim demands 3. The
second conjunct shows the same third creation without the delete gets
3. -/
theorem rowkey_reuse_counterexample :
    ((((KSState.empty.createRow [("name", Json.str "a")]).1.createRow
        [("name", Json.str "b")]).1.deleteRow 2).createRow
          [("name", Json.str "c")]).2 = 2
    ∧ (((KSState.empty.createRow [("name", Json.str "a")]).1.createRow
        [("name", Json.str "b")]).1.createRow [("name", Json.str "c")]).2 = 3 := by
  decide

/-- C4 (amended): creating N rows in sequence with no explicit
identifiers and no intervening deletes assigns rowKeys 1..N in creation
order (each allocation being `max(existing rowKey) + 1`, starting at 1
for an empty KeySpace); deleting a row whose rowKey is below the
current maximum leaves the next allocated key unchanged, but — as the
counterexample shows — deleting the highest-keyed row makes the next
allocation reuse `max(remaining) + 1`, so deleted maximal rowKeys are
reused. -/
theorem rowkey_allocation (ds : List (List (String × Json)))
    (hne : ∀ d ∈ ds, d ≠ []) (st : KSState) (rk : Nat)
    (hbelow : ∃ e ∈ st.log, rk < e.rowKey) :
    createRowKeys KSState.empty ds = List.range' 1 ds.length
    ∧ allocKey ((st.deleteRow rk).log) = allocKey st.log := by
  constructor
  · rw [createRowKeys_eq_range ds KSState.empty hne]
    rfl
  · obtain ⟨e₀, he₀, hlt⟩ := hbelow
    have hm : rk < maxRowKey st.log := lt_of_lt_of_le hlt (le_maxRowKey he₀)
    have hne₀ : maxRowKey st.log ≠ 0 := by
      intro hc
      rw [hc] at hm
      exact Nat.not_lt_zero rk hm
    obtain ⟨eM, heM, heMk⟩ := maxRowKey_achieved hne₀
    have heMmem : eM ∈ (st.deleteRow rk).log := by
      unfold KSState.deleteRow
      apply List.mem_filter.mpr
      refine ⟨heM, ?_⟩
      simp only [Bool.not_eq_eq_eq_not, Bool.not_true, beq_eq_false_iff_ne, ne_eq]
      intro hc
      rw [heMk] at hc
      rw [hc] at hm
      exact lt_irrefl rk hm
    have hle : maxRowKey ((st.deleteRow rk).log) ≤ maxRowKey st.log := by
      apply maxRowKey_le
      intro e he
      unfold KSState.deleteRow at he
      exact le_maxRowKey (List.mem_filter.mp he).1
    have hge : maxRowKey st.log ≤ maxRowKey ((st.deleteRow rk).log) := by
      rw [← heMk]
      exact le_maxRowKey heMmem
    unfold allocKey
    rw [le_antisymm hle hge]

/-- C4 witness: sequential creations from scratch get keys 1 and 2, and
deleting row 1 while row 3 exists does not change the next allocated
key. -/
theorem rowkey_allocation_witness :
    createRowKeys KSState.empty [[("a", Json.null)], [("b", Json.null)]] = [1, 2]
    ∧ allocKey (((⟨[⟨1, "a", Json.null, 0⟩, ⟨3, "b", Json.null, 1⟩], 2⟩ :
        KSState).deleteRow 1).log)
      = allocKey [⟨1, "a", Json.null, 0⟩, ⟨3, "b", Json.null, 1⟩] := by
  have h := rowkey_allocation [[("a", Json.null)], [("b", Json.null)]]
    (by decide)
    ⟨[⟨1, "a", Json.null, 0⟩, ⟨3, "b", Json.null, 1⟩], 2⟩ 1
    ⟨⟨3, "b", Json.null, 1⟩, by decide, by decide⟩
  exact ⟨h.1.trans (by decide), h.2⟩

/-! ### Lemmas on event dispatch -/

theorem emitEvent_no_stop {hs : List Handler} (rk : Nat) (c : String) (v : Json)
    (h : ∀ h₁ ∈ hs, h₁.stops rk c v = false) :
    emitEvent hs rk c v = hs.map (fun h₁ => (h₁.hid, rk, c, v)) := by
  induction hs with
  | nil => rfl
  | cons h₁ rest ih =>
      simp only [emitEvent, h h₁ (List.mem_cons_self _ _), List.map_cons]
      rw [ih (fun h₂ hm => h h₂ (List.mem_cons_of_mem _ hm))]
      simp

theorem createRowSignals_deliveries (hs : List Handler) (st : KSState)
    (data : List (String × Json)) :
    (createRowSignals hs st data).2
      = data.flatMap (fun cv => emitEvent hs (allocKey st.log) cv.1 cv.2) := by
  unfold createRowSignals
  generalize allocKey st.log = rk
  suffices h : ∀ (l : List (String × Json)) (s : KSState)
      (acc : List (Nat × Nat × String × Json)),
      (l.foldl (fun a cv =>
        (a.1.append rk cv.1 cv.2, a.2 ++ emitEvent hs rk cv.1 cv.2)) (s, acc)).2
        = acc ++ l.flatMap (fun cv => emitEvent hs rk cv.1 cv.2) by
    simpa using h data st []
  intro l
  induction l with
  | nil => intro s acc; simp
  | cons cv rest ih =>
      intro s acc
      rw [List.foldl_cons, ih, List.flatMap_cons, List.append_assoc]

theorem filter_flatMap_list {α β : Type} (l : List α) (f : α → List β)
    (p : β → Bool) :
    (l.flatMap f).filter p = l.flatMap (fun x => (f x).filter p) := by
  induction l with
  | nil => rfl
  | cons x rest ih =>
      rw [List.flatMap_cons, List.filter_append, ih, List.flatMap_cons]

theorem mem_unbindFirst {hs : List Handler} {hid : Nat} {h₁ : Handler}
    (h : h₁ ∈ unbindFirst hs hid) : h₁ ∈ hs := by
  induction hs with
  | nil => exact absurd h (List.not_mem_nil _)
  | cons h₂ rest ih =>
      simp only [unbindFirst] at h
      by_cases hc : h₂.hid = hid
      · rw [if_pos hc] at h
        exact List.mem_cons_of_mem _ h
      · rw [if_neg hc] at h
        rcases List.mem_cons.mp h with h | h
        · exact h ▸ List.mem_cons_self _ _
        · exact List.mem_cons_of_mem _ (ih h)

theorem unbindFirst_no_hid {hs : List Handler} {hid : Nat}
    (hnd : (hs.map (·.hid)).Nodup) :
    ∀ h₁ ∈ unbindFirst hs hid, h₁.hid ≠ hid := by
  induction hs with
  | nil => intro h₁ hm; exact absurd hm (List.not_mem_nil _)
  | cons h₂ rest ih =>
      simp only [List.map_cons, List.nodup_cons] at hnd
      intro h₁ hm
      simp only [unbindFirst] at hm
      by_cases hc : h₂.hid = hid
      · rw [if_pos hc] at hm
        intro hcon
        exact hnd.1 (hc ▸ hcon ▸ List.mem_map.mpr ⟨h₁, hm, rfl⟩)
      · rw [if_neg hc] at hm
        rcases List.mem_cons.mp hm with hm | hm
        · exact hm ▸ hc
        · exact ih hnd.2 h₁ hm

theorem unbindFirst_filter_ne (hs : List Handler) (hid₀ hid : Nat)
    (h : hid ≠ hid₀) :
    (unbindFirst hs hid₀).filter (fun h₁ => h₁.hid == hid)
      = hs.filter (fun h₁ => h₁.hid == hid) := by
  induction hs with
  | nil => rfl
  | cons h₁ rest ih =>
      simp only [unbindFirst]
      by_cases hc : h₁.hid = hid₀
      · rw [if_pos hc]
        have : (h₁.hid == hid) = false := by
          simp only [beq_eq_false_iff_ne, ne_eq, hc]
          exact fun hcon => h hcon.symm
        rw [List.filter_cons, this]
        simp
      · rw [if_neg hc, List.filter_cons, List.filter_cons, ih]

theorem flatMap_nil_fun {α β : Type} (l : List α) :
    l.flatMap (fun _ => ([] : List β)) = [] := by
  induction l with
  | nil => rfl
  | cons x rest ih => rw [List.flatMap_cons, ih]; rfl

/-! ### C6 -/

/-- C6: writing the columns of one `create_row` call delivers, per
written column, one `(rowKey, column, value)` signal to every handler
bound to the KeySpace, in registration order (given that no callback
returns the `False` stop sentinel); after `unbind()` of one
registration, that registration receives zero further deliveries while
every other registration's deliveries are unchanged. -/
theorem event_fanout_unbind (hs : List Handler) (st : KSState)
    (data : List (String × Json)) (h₀ : Handler)
    (hmem : h₀ ∈ hs) (hnd : (hs.map (·.hid)).Nodup)
    (hnostop : ∀ h₁ ∈ hs, ∀ rk c v, h₁.stops rk c v = false) :
    (createRowSignals hs st data).2
      = data.flatMap (fun cv =>
          hs.map (fun h₁ => (h₁.hid, allocKey st.log, cv.1, cv.2)))
    ∧ ((createRowSignals (unbindFirst hs h₀.hid) st data).2).filter
        (fun d => d.1 == h₀.hid) = []
    ∧ ∀ hid, hid ≠ h₀.hid →
        ((createRowSignals (unbindFirst hs h₀.hid) st data).2).filter
          (fun d => d.1 == hid)
        = ((createRowSignals hs st data).2).filter (fun d => d.1 == hid) := by
  have hnostop₁ : ∀ h₁ ∈ unbindFirst hs h₀.hid, ∀ rk c v,
      h₁.stops rk c v = false :=
    fun h₁ hm => hnostop h₁ (mem_unbindFirst hm)
  refine ⟨?_, ?_, ?_⟩
  · have hfun : (fun cv : String × Json =>
        emitEvent hs (allocKey st.log) cv.1 cv.2)
        = fun cv => hs.map (fun h₁ => (h₁.hid, allocKey st.log, cv.1, cv.2)) := by
      funext cv
      exact emitEvent_no_stop _ _ _ (fun h₁ hm => hnostop h₁ hm _ _ _)
    rw [createRowSignals_deliveries, hfun]
  · rw [createRowSignals_deliveries, filter_flatMap_list]
    rw [show (fun cv : String × Json =>
        ((emitEvent (unbindFirst hs h₀.hid) (allocKey st.log) cv.1
          cv.2).filter (fun d => d.1 == h₀.hid)))
        = fun _ => [] from ?_]
    · exact flatMap_nil_fun data
    · funext cv
      rw [emitEvent_no_stop _ _ _ (fun h₁ hm => hnostop₁ h₁ hm _ _ _),
        List.filter_map]
      rw [show (unbindFirst hs h₀.hid).filter
          ((fun d : Nat × Nat × String × Json => d.1 == h₀.hid) ∘
            (fun h₁ => (h₁.hid, allocKey st.log, cv.1, cv.2)))
          = [] from List.filter_eq_nil_iff.mpr ?_]
      · rfl
      · intro h₁ hm
        simp only [Function.comp]
        simpa using unbindFirst_no_hid hnd h₁ hm
  · intro hid hne
    rw [createRowSignals_deliveries, createRowSignals_deliveries,
      filter_flatMap_list, filter_flatMap_list]
    have hfun : (fun cv : String × Json =>
        (emitEvent (unbindFirst hs h₀.hid) (allocKey st.log) cv.1 cv.2).filter
          (fun d => d.1 == hid))
        = fun cv => (emitEvent hs (allocKey st.log) cv.1 cv.2).filter
            (fun d => d.1 == hid) := by
      funext cv
      rw [emitEvent_no_stop _ _ _ (fun h₁ hm => hnostop₁ h₁ hm _ _ _),
        emitEvent_no_stop _ _ _ (fun h₁ hm => hnostop h₁ hm _ _ _),
        List.filter_map, List.filter_map]
      congr 1
      exact unbindFirst_filter_ne hs h₀.hid hid hne
    rw [hfun]

/-- C6 witness: two handlers, two columns in one `create_row`: four
deliveries in order; after unbinding handler 1, it receives nothing
while handler 2's deliveries are unchanged. -/
theorem event_fanout_unbind_witness :
    (createRowSignals [handlerA, handlerB] KSState.empty
        [("a", Json.num 1), ("b", Json.num 2)]).2
      = [(1, 1, "a", Json.num 1), (2, 1, "a", Json.num 1),
         (1, 1, "b", Json.num 2), (2, 1, "b", Json.num 2)]
    ∧ ((createRowSignals (unbindFirst [handlerA, handlerB] handlerA.hid)
        KSState.empty [("a", Json.num 1), ("b", Json.num 2)]).2).filter
          (fun d => d.1 == handlerA.hid) = []
    ∧ ((createRowSignals (unbindFirst [handlerA, handlerB] handlerA.hid)
        KSState.empty [("a", Json.num 1), ("b", Json.num 2)]).2).filter
          (fun d => d.1 == 2)
      = ((createRowSignals [handlerA, handlerB] KSState.empty
          [("a", Json.num 1), ("b", Json.num 2)]).2).filter
            (fun d => d.1 == 2) := by
  have h := event_fanout_unbind [handlerA, handlerB] KSState.empty
    [("a", Json.num 1), ("b", Json.num 2)] handlerA
    (List.mem_cons_self _ _) (by decide) ?_
  · exact ⟨h.1.trans (by decide), h.2.1, h.2.2 2 (by decide)⟩
  · intro h₁ hm rk c v
    rcases List.mem_cons.mp hm with rfl | hm
    · rfl
    rcases List.mem_cons.mp hm with rfl | hm
    · rfl
    exact absurd hm (List.not_mem_nil _)

/-! ### C7 -/

/-- C7: the never-raises claim fails on the code. Stepping a path
segment through a non-object, non-sequence value — here `$.k1.k2` on
the document with `k1 = "v1"` — raises a `TypeError` that the
`except (KeyError, IndexError)` clause does not catch. Missing keys
(second and third conjuncts, straight from the repository's own test
cases) do yield absent as claimed. -/
theorem json_extract_fallback_type_error :
    jsonExtractFallback (Json.obj [("k1", Json.str "v1")]) "$.k1.k2"
      = Except.error PyErr.typeError
    ∧ jsonExtractFallback (Json.obj [("k1", Json.str "v1")]) "$.kx"
      = Except.ok none
    ∧ jsonExtractFallback (Json.obj [("k1", Json.str "v1")]) "$.kx[0]"
      = Except.ok none
    ∧ jsonExtractFallback (Json.obj [("k1", Json.str "v1")]) "$.k1"
      = Except.ok (some (Json.str "v1")) := by
  refine ⟨by decide, by decide, by decide, by decide⟩

/-! ### C8 -/

/-- C8: the idempotence claim fails on the code. `KeySpace.create()`
calls `self.model.create_table()` with peewee's default
`fail_silently=False`, i.e. a plain `CREATE TABLE`; the first call
succeeds but the second raises `OperationalError` because the log table
already exists — even though the signal trigger and all index
provisioning are IF-NOT-EXISTS. -/
theorem create_not_idempotent :
    (ksCreate Catalog.emptyCat "test-keyspace"
        [("user", "$.user.username")]).isOk = true
    ∧ (ksCreate Catalog.emptyCat "test-keyspace" [("user", "$.user.username")]
        >>= fun cat =>
          ksCreate cat "test-keyspace" [("user", "$.user.username")])
      = Except.error PyErr.operationalError := by
  refine ⟨by decide, by decide⟩

/-! ### C9 -/

/-- C9 counterexample: with the unrecognized operator token `"=~"`, the
`query()` call itself succeeds — `Index.query` contains `yield`, so the
call merely constructs a generator and runs none of the body — and the
`KeyError` from `_op_map[operation]` surfaces only when the returned
sequence is first advanced, contradicting report-at-call-time. -/
theorem query_invalid_op_call_counterexample :
    (queryStaged (fun _ _ _ => false) IdxState.empty (Json.str "x") "=~").isOk
      = true
    ∧ forceStaged (queryStaged (fun _ _ _ => false) IdxState.empty
        (Json.str "x") "=~") = Except.error PyErr.keyError :=
  ⟨rfl, rfl⟩

/-- C9 (amended): an unrecognized comparison operator token passed to
`Index.query()` is reported as an uncaught `KeyError` — never silently
defaulted to some operator — but only when the returned generator is
first advanced, not at the time `query()` is called, which always
succeeds. -/
theorem query_invalid_op_deferred (sem : OpTag → Json → Json → Bool)
    (s : IdxState) (v : Json) (opStr : String) :
    (queryStaged sem s v opStr).isOk = true
    ∧ (dictGet opMap opStr = none →
        forceStaged (queryStaged sem s v opStr) = Except.error PyErr.keyError)
    ∧ ∀ tag, dictGet opMap opStr = some tag →
        forceStaged (queryStaged sem s v opStr)
          = Except.ok (queryRows s.ks.log s.items (fun x => sem tag x v)) := by
  refine ⟨rfl, ?_, ?_⟩
  · intro h
    simp [forceStaged, queryStaged, h]
  · intro tag h
    simp [forceStaged, queryStaged, h]

/-- C9 witness: the bogus token errors at force time; the valid token
`"=="` forces to the (empty) row list without error. -/
theorem query_invalid_op_deferred_witness :
    forceStaged (queryStaged (fun _ _ _ => false) IdxState.empty
        (Json.str "x") "=~") = Except.error PyErr.keyError
    ∧ forceStaged (queryStaged (fun _ _ _ => false) IdxState.empty
        (Json.str "x") "==") = Except.ok [] := by
  have h₁ := query_invalid_op_deferred (fun _ _ _ => false) IdxState.empty
    (Json.str "x") "=~"
  have h₂ := query_invalid_op_deferred (fun _ _ _ => false) IdxState.empty
    (Json.str "x") "=="
  exact ⟨h₁.2.1 rfl, (h₂.2.2 OpTag.eq rfl).trans rfl⟩

/-! ### C10 -/

theorem dictGet_dictSet_self [DecidableEq κ] (d : List (κ × α)) (k : κ)
    (v : α) : dictGet (dictSet d k v) k = some v := by
  induction d with
  | nil => simp [dictSet, dictGet]
  | cons p rest ih =>
      obtain ⟨k₁, v₁⟩ := p
      by_cases hk : k₁ = k
      · subst hk
        simp [dictSet, dictGet]
      · simp [dictSet, dictGet, hk, ih]

theorem dictGet_mem [DecidableEq κ] {d : List (κ × α)} {k : κ} {v : α}
    (h : dictGet d k = some v) : (k, v) ∈ d := by
  induction d with
  | nil => simp [dictGet] at h
  | cons p rest ih =>
      obtain ⟨k₁, v₁⟩ := p
      by_cases hk : k₁ = k
      · subst hk
        have hv : v₁ = v := by
          rw [dictGet, if_pos rfl] at h
          exact Option.some.inj h
        subst hv
        exact List.mem_cons_self _ _
      · rw [dictGet, if_neg hk] at h
        exact List.mem_cons_of_mem _ (ih h)

/-- C10: KeySpace (and Index) storage names strip every non-word
character of the supplied name, so `test-keyspace` and `testkeyspace`
sanitize to the same identifier; any two names equal after sanitization
denote the same storage table — writes through one are writes through
the other, reads agree, and (for a well-formed clock) a value written
under one name is read back under the other. -/
theorem sanitized_names_share_storage (n₁ n₂ : String)
    (h : clean n₁ = clean n₂) :
    clean "test-keyspace" = "testkeyspace"
    ∧ clean "testkeyspace" = "testkeyspace"
    ∧ (∀ db rk col v, dbWrite db n₁ rk col v = dbWrite db n₂ rk col v)
    ∧ (∀ db rk col, dbRead db n₁ rk col = dbRead db n₂ rk col)
    ∧ ∀ (db : Db) rk col v, db.wf →
        dbRead (dbWrite db n₁ rk col v) n₂ rk col = some v := by
  refine ⟨rfl, rfl, ?_, ?_, ?_⟩
  · intro db rk col v
    unfold dbWrite
    rw [h]
  · intro db rk col
    unfold dbRead
    rw [h]
  · intro db rk col v hwf
    unfold dbWrite dbRead
    rw [h, Db.getLog, dictGet_dictSet_self]
    simp only [Option.getD_some]
    unfold latestEntry
    rw [List.filter_append]
    have hone : List.filter (entryMatches rk col)
        [⟨rk, col, v, db.clock⟩] = [⟨rk, col, v, db.clock⟩] := by
      simp [List.filter, entryMatches]
    rw [hone, pickLatest_append_max ?_]
    · rfl
    · intro x hx
      have hx₁ := (List.mem_filter.mp hx).1
      unfold Db.getLog at hx₁
      cases hd : dictGet db.tables (clean n₂) with
      | none =>
          rw [hd] at hx₁
          simp at hx₁
      | some lg =>
          rw [hd] at hx₁
          simp only [Option.getD_some] at hx₁
          exact hwf (clean n₂, lg) (dictGet_mem hd) x hx₁

/-- C10 witness: on an empty database, a value written through a
KeySpace named `test-keyspace` is read back through one named
`testkeyspace`. -/
theorem sanitized_names_share_storage_witness :
    dbRead (dbWrite ⟨[], 0⟩ "test-keyspace" 1 "col" (Json.str "x"))
        "testkeyspace" 1 "col" = some (Json.str "x")
    ∧ clean "test-keyspace" = "testkeyspace" := by
  have h := sanitized_names_share_storage "test-keyspace" "testkeyspace"
    (by decide)
  exact ⟨h.2.2.2.2 ⟨[], 0⟩ 1 "col" (Json.str "x") (by decide), h.1⟩

end Schemaless
